import Mathlib

/-!
Verification development for the YouTube analytics exporter (`src/main.py`).

The program is a paginated REST API client that assembles a per-video daily
metrics table and an optional comments table, both serialized to CSV.  This
file shallowly embeds the pure core of the pipeline:

* Python string helpers (`str.split(",")`, `str.strip()`, `str.lstrip("-")`,
  `",".join`) are embedded as executable functions on `List Char` / `String`;
* `_sanitize_sort_for_day_only` and `sanitize_metrics` are translated
  line-by-line on top of those helpers;
* the paginated fetch loop of `run_report` is embedded as a well-founded
  recursion over the server's row list;
* the two report-assembly paths (`videos_daily_via_loop` and
  `videos_daily_via_analytics_only`) are embedded over a small data-frame
  model, with the remote analytics endpoint modelled as a deterministic
  function of a stored row list;
* the comment fetch loop (`fetch_latest_comments`) is embedded with the
  comments endpoint modelled as a newest-first stream per video;
* the exception-driven control flow of `main` (loop failure, fallback,
  skip-markers) is embedded with `Except`.
-/

namespace YTExporter

/-! ## Python string primitives -/

/-- Embedding of Python `s.split(c)` for a single-character separator, on the
underlying character list.  `splitChar c [] = [[]]` mirrors
`"".split(",") == [""]`. -/
def splitChar (c : Char) : List Char → List (List Char)
  | [] => [[]]
  | x :: xs =>
    match splitChar c xs with
    | [] => [[]]
    | h :: t => if x = c then [] :: h :: t else (x :: h) :: t

/-- Embedding of Python `c.join(pieces)` for a single-character separator. -/
def joinChar (c : Char) : List (List Char) → List Char
  | [] => []
  | [l] => l
  | l :: ls => l ++ c :: joinChar c ls

theorem splitChar_ne_nil (c : Char) (l : List Char) : splitChar c l ≠ [] := by
  induction l with
  | nil => simp [splitChar]
  | cons x xs ih =>
    simp only [splitChar]
    cases h : splitChar c xs with
    | nil => exact absurd h ih
    | cons h0 t => by_cases hx : x = c <;> simp [hx]

theorem splitChar_cons_eq {c x : Char} {xs : List Char} {h0 : List Char}
    {t : List (List Char)} (hsp : splitChar c xs = h0 :: t) :
    splitChar c (x :: xs) =
      if x = c then [] :: h0 :: t else (x :: h0) :: t := by
  show (match splitChar c xs with
    | [] => [[]]
    | h :: t => if x = c then [] :: h :: t else (x :: h) :: t) = _
  rw [hsp]

/-- Every piece produced by `splitChar c` is free of the separator. -/
theorem splitChar_not_mem (c : Char) (l : List Char) :
    ∀ p ∈ splitChar c l, c ∉ p := by
  induction l with
  | nil =>
    intro p hp hc
    simp only [splitChar, List.mem_singleton] at hp
    subst hp; simp at hc
  | cons x xs ih =>
    intro p hp hc
    rcases hsp : splitChar c xs with _ | ⟨h0, t⟩
    · exact absurd hsp (splitChar_ne_nil c xs)
    · rw [splitChar_cons_eq hsp] at hp
      by_cases hx : x = c
      · rw [if_pos hx] at hp
        rcases List.mem_cons.1 hp with rfl | hp
        · simp at hc
        · exact ih p (hsp ▸ hp) hc
      · rw [if_neg hx] at hp
        rcases List.mem_cons.1 hp with rfl | hp
        · rcases List.mem_cons.1 hc with rfl | hc2
          · exact hx rfl
          · exact ih h0 (hsp ▸ List.mem_cons_self h0 t) hc2
        · exact ih p (hsp ▸ List.mem_cons_of_mem h0 hp) hc

theorem splitChar_of_not_mem {c : Char} {l : List Char} (h : c ∉ l) :
    splitChar c l = [l] := by
  induction l with
  | nil => rfl
  | cons x xs ih =>
    simp only [splitChar]
    have hx : x ≠ c := fun e => h (e ▸ List.mem_cons_self x xs)
    have hxs : c ∉ xs := fun e => h (List.mem_cons_of_mem x e)
    rw [ih hxs]
    simp [hx]

theorem splitChar_append_cons {c : Char} {x : List Char} (hx : c ∉ x)
    (rest : List Char) :
    splitChar c (x ++ c :: rest) = x :: splitChar c rest := by
  induction x with
  | nil =>
    rcases h : splitChar c rest with _ | ⟨h0, t⟩
    · exact absurd h (splitChar_ne_nil c rest)
    · rw [List.nil_append, splitChar_cons_eq h, if_pos rfl]
  | cons a as ih =>
    have ha : a ≠ c := fun e => hx (e ▸ List.mem_cons_self a as)
    have has : c ∉ as := fun e => hx (List.mem_cons_of_mem a e)
    have hrec := ih has
    rw [List.cons_append, splitChar_cons_eq hrec, if_neg ha]

/-- Round trip: splitting a join recovers the pieces, provided the list of
pieces is nonempty and each piece is separator-free. -/
theorem splitChar_joinChar (c : Char) :
    ∀ L : List (List Char), L ≠ [] → (∀ l ∈ L, c ∉ l) →
      splitChar c (joinChar c L) = L := by
  intro L
  induction L with
  | nil => intro h; exact absurd rfl h
  | cons l ls ih =>
    intro _ hfree
    cases ls with
    | nil =>
      simp only [joinChar]
      exact splitChar_of_not_mem (hfree l (List.mem_cons_self l []))
    | cons m ms =>
      have hl : c ∉ l := hfree l (List.mem_cons_self l (m :: ms))
      have hrest : ∀ p ∈ m :: ms, c ∉ p :=
        fun p hp => hfree p (List.mem_cons_of_mem l hp)
      show splitChar c (l ++ c :: joinChar c (m :: ms)) = l :: m :: ms
      rw [splitChar_append_cons hl, ih (by simp) hrest]

/-- Characters of a `joinChar` are the pieces' characters plus separators. -/
theorem mem_joinChar {a c : Char} {L : List (List Char)} (h : a ∈ joinChar c L) :
    a = c ∨ ∃ l ∈ L, a ∈ l := by
  induction L with
  | nil => simp [joinChar] at h
  | cons l ls ih =>
    cases ls with
    | nil =>
      simp only [joinChar] at h
      exact Or.inr ⟨l, List.mem_cons_self l [], h⟩
    | cons m ms =>
      simp only [joinChar] at h
      rcases List.mem_append.1 h with h1 | h1
      · exact Or.inr ⟨l, List.mem_cons_self l (m :: ms), h1⟩
      · rcases List.mem_cons.1 h1 with h2 | h2
        · exact Or.inl h2
        · rcases ih h2 with h3 | ⟨p, hp, hap⟩
          · exact Or.inl h3
          · exact Or.inr ⟨p, List.mem_cons_of_mem l hp, hap⟩

/-- Embedding of Python `s.split(",")` at the `String` level. -/
def pySplitComma (s : String) : List String :=
  (splitChar ',' s.data).map String.mk

/-- Embedding of Python `",".join(parts)` at the `String` level. -/
def pyJoinComma (parts : List String) : String :=
  String.mk (joinChar ',' (parts.map String.data))

/-- List-level body of Python `s.strip()`: drop whitespace from both ends. -/
def pyStripL (l : List Char) : List Char :=
  ((l.dropWhile Char.isWhitespace).reverse.dropWhile Char.isWhitespace).reverse

/-- Embedding of Python `s.strip()` (default whitespace strip at both ends).
Python's default strip set is Unicode whitespace; we use `Char.isWhitespace`,
which agrees on the characters that can occur in the program's inputs. -/
def pyStrip (s : String) : String :=
  String.mk (pyStripL s.data)

/-- Embedding of Python `s.lstrip("-")`: removes every leading `'-'`. -/
def pyLstripDash (s : String) : String :=
  String.mk (s.data.dropWhile (fun a => a = '-'))

theorem dropWhile_dropWhile (p : α → Bool) (l : List α) :
    (l.dropWhile p).dropWhile p = l.dropWhile p := by
  induction l with
  | nil => rfl
  | cons a as ih =>
    by_cases h : p a
    · simp [List.dropWhile_cons, h, ih]
    · simp [List.dropWhile_cons, h]

theorem dropWhile_eq_append (p : α → Bool) (l : List α) :
    ∃ t, l = t ++ l.dropWhile p := by
  induction l with
  | nil => exact ⟨[], rfl⟩
  | cons a as ih =>
    by_cases h : p a
    · rcases ih with ⟨t, ht⟩
      exact ⟨a :: t, by simp [List.dropWhile_cons, h]; exact ht⟩
    · exact ⟨[], by simp [List.dropWhile_cons, h]⟩

theorem dropWhile_head_not {p : α → Bool} {l : List α} :
    ∀ a, (l.dropWhile p).head? = some a → ¬ p a := by
  induction l with
  | nil => intro a h; simp [List.dropWhile] at h
  | cons x xs ih =>
    intro a h
    by_cases hx : p x
    · exact ih a (by simpa [List.dropWhile_cons, hx] using h)
    · simp [List.dropWhile_cons, hx] at h
      subst h; simp [hx]

theorem dropWhile_eq_self_of_head {p : α → Bool} {l : List α}
    (h : ∀ a, l.head? = some a → ¬ p a) : l.dropWhile p = l := by
  cases l with
  | nil => rfl
  | cons a as =>
    have := h a (by simp)
    simp [List.dropWhile_cons, this]

/-- Idempotence of `pyStripL`. -/
theorem pyStripL_idem (l : List Char) : pyStripL (pyStripL l) = pyStripL l := by
  unfold pyStripL
  set ws := Char.isWhitespace with hws
  set m := l.dropWhile ws with hm
  set r := (m.reverse.dropWhile ws).reverse with hr
  -- the right-stripped side: `r.reverse` is already a `dropWhile` image
  have h1 : r.reverse.dropWhile ws = r.reverse := by
    rw [hr, List.reverse_reverse]
    exact dropWhile_dropWhile ws m.reverse
  -- the left side: `r` is a prefix of `m`, whose head is not whitespace
  have h2 : r.dropWhile ws = r := by
    apply dropWhile_eq_self_of_head
    intro a ha
    rcases dropWhile_eq_append ws m.reverse with ⟨t, ht⟩
    have hmr : m = r ++ t.reverse := by
      have := congrArg List.reverse ht
      simpa [hr] using this
    cases hr0 : r with
    | nil => rw [hr0] at ha; simp at ha
    | cons b bs =>
      rw [hr0] at ha
      simp only [List.head?_cons, Option.some.injEq] at ha
      have hma : m.head? = some a := by
        rw [hmr, hr0, List.cons_append, List.head?_cons, ha]
      exact dropWhile_head_not (l := l) a (hm ▸ hma)
  rw [h2, h1, hr, List.reverse_reverse]

/-- Idempotence of `pyStrip`. -/
theorem pyStrip_pyStrip (s : String) : pyStrip (pyStrip s) = pyStrip s := by
  unfold pyStrip
  exact congrArg String.mk (pyStripL_idem s.data)

theorem not_mem_pyStripL {c : Char} {l : List Char} (h : c ∉ l) :
    c ∉ pyStripL l := by
  unfold pyStripL
  intro hc
  have h1 := List.mem_reverse.1 hc
  have h2 := (List.dropWhile_sublist _).subset h1
  have h3 := List.mem_reverse.1 h2
  exact h ((List.dropWhile_sublist _).subset h3)

theorem not_mem_pyStrip {c : Char} {s : String} (h : c ∉ s.data) :
    c ∉ (pyStrip s).data := not_mem_pyStripL h

theorem not_mem_data_pySplitComma {s : String} :
    ∀ p ∈ pySplitComma s, ',' ∉ p.data := by
  intro p hp
  rcases List.mem_map.1 hp with ⟨l, hl, rfl⟩
  exact splitChar_not_mem ',' s.data l hl

/-- Round trip at the `String` level. -/
theorem pySplitComma_pyJoinComma {parts : List String} (hne : parts ≠ [])
    (hfree : ∀ p ∈ parts, ',' ∉ p.data) :
    pySplitComma (pyJoinComma parts) = parts := by
  unfold pySplitComma pyJoinComma
  have hne' : parts.map String.data ≠ [] := by
    simpa using hne
  have hfree' : ∀ l ∈ parts.map String.data, ',' ∉ l := by
    intro l hl
    rcases List.mem_map.1 hl with ⟨p, hp, rfl⟩
    exact hfree p hp
  rw [show (String.mk (joinChar ',' (parts.map String.data))).data =
        joinChar ',' (parts.map String.data) from rfl,
      splitChar_joinChar ',' (parts.map String.data) hne' hfree',
      List.map_map]
  exact List.map_id parts

/-! ## Sort-key sanitization (`_sanitize_sort_for_day_only`, main.py:344-353) -/

/-- The trimmed, nonempty comma-separated tokens of a string: embedding of
`[p.strip() for p in s.split(",") if p.strip()]`. -/
def tokensOf (s : String) : List String :=
  ((pySplitComma s).map pyStrip).filter (fun p => p ≠ "")

theorem tokensOf_mem_props {s : String} :
    ∀ p ∈ tokensOf s, pyStrip p = p ∧ p ≠ "" ∧ ',' ∉ p.data := by
  intro p hp
  unfold tokensOf at hp
  have hne := List.of_mem_filter hp
  have hmem := List.mem_of_mem_filter hp
  rcases List.mem_map.1 hmem with ⟨q, hq, rfl⟩
  refine ⟨?_, by simpa using hne, ?_⟩
  · exact pyStrip_pyStrip q
  · exact not_mem_pyStripL (not_mem_data_pySplitComma q hq)

/-- Step 2 of `_sanitize_sort_for_day_only`: drop every part whose name after
`lstrip("-")` is `video` (main.py:348). -/
def sortTokensNoVideo (s : String) : List String :=
  (tokensOf s).filter (fun p => pyLstripDash p ≠ "video")

/-- Step 3: `if not parts: parts = ["day"]` (main.py:349-350). -/
def sortTokensNonempty (s : String) : List String :=
  if (sortTokensNoVideo s).isEmpty then ["day"] else sortTokensNoVideo s

/-- Step 4: prepend `day` when no part's name after `lstrip("-")` is `day`
(main.py:351-352). -/
def sortTokens (s : String) : List String :=
  if (sortTokensNonempty s).all (fun p => pyLstripDash p ≠ "day") then
    "day" :: sortTokensNonempty s
  else sortTokensNonempty s

/-- Embedding of `_sanitize_sort_for_day_only` (main.py:344-353).  `none`
models Python `None`; the `s = ""` branch covers the other falsy case of
`if not sort`. -/
def sanitizeSortForDayOnly (sort : Option String) : String :=
  match sort with
  | none => "day"
  | some s => if s = "" then "day" else pyJoinComma (sortTokens s)

theorem sortTokensNonempty_ne_nil (s : String) : sortTokensNonempty s ≠ [] := by
  unfold sortTokensNonempty
  by_cases h : (sortTokensNoVideo s).isEmpty
  · rw [if_pos h]; simp
  · rw [if_neg h]
    exact fun e => h (by simp [e])

theorem sortTokens_ne_nil (s : String) : sortTokens s ≠ [] := by
  unfold sortTokens
  by_cases h : (sortTokensNonempty s).all (fun p => pyLstripDash p ≠ "day")
  · rw [if_pos h]; simp
  · rw [if_neg h]; exact sortTokensNonempty_ne_nil s

theorem sortTokens_clean (s : String) :
    ∀ p ∈ sortTokens s, pyStrip p = p ∧ p ≠ "" ∧ ',' ∉ p.data := by
  have hday : pyStrip "day" = "day" ∧ ("day" : String) ≠ "" ∧
      ',' ∉ ("day" : String).data := by decide
  intro p hp
  unfold sortTokens at hp
  have hp2 : p = "day" ∨ p ∈ sortTokensNonempty s := by
    by_cases h : (sortTokensNonempty s).all (fun p => pyLstripDash p ≠ "day")
    · rw [if_pos h] at hp
      exact List.mem_cons.1 hp
    · rw [if_neg h] at hp
      exact Or.inr hp
  rcases hp2 with rfl | hp2
  · exact hday
  · unfold sortTokensNonempty at hp2
    by_cases h : (sortTokensNoVideo s).isEmpty
    · rw [if_pos h, List.mem_singleton] at hp2
      subst hp2; exact hday
    · rw [if_neg h] at hp2
      exact tokensOf_mem_props p (List.mem_of_mem_filter hp2)

/-- Token round trip: splitting and trimming a comma-join of clean tokens
recovers the tokens. -/
theorem tokensOf_pyJoinComma {parts : List String} (hne : parts ≠ [])
    (hclean : ∀ p ∈ parts, pyStrip p = p ∧ p ≠ "" ∧ ',' ∉ p.data) :
    tokensOf (pyJoinComma parts) = parts := by
  unfold tokensOf
  rw [pySplitComma_pyJoinComma hne (fun p hp => (hclean p hp).2.2)]
  have hmap : parts.map pyStrip = parts := by
    conv_rhs => rw [← List.map_id parts]
    exact List.map_congr_left (fun p hp => (hclean p hp).1)
  rw [hmap]
  apply List.filter_eq_self.mpr
  intro a ha
  simpa using (hclean a ha).2.1

/-- C3: per-video sort sanitization removes every key whose dash-stripped name
is `video`, and injects a `day` key when none remains.  The first conjunct
characterizes the sanitized string's token list as the `sortTokens` pipeline
(video filter, nonempty default, day injection); the next two state that no
`video` key survives and a `day` key is always present; the last two are the
spec's concrete examples. -/
theorem C3_sort_sanitization :
    (∀ s : String,
      tokensOf (sanitizeSortForDayOnly (some s)) = sortTokens s) ∧
    (∀ s : String, ∀ p ∈ sortTokens s, pyLstripDash p ≠ "video") ∧
    (∀ s : String, ∃ p ∈ sortTokens s, pyLstripDash p = "day") ∧
    sanitizeSortForDayOnly (some "video,-day") = "-day" ∧
    sanitizeSortForDayOnly (some "video") = "day" := by
  refine ⟨?_, ?_, ?_, by decide, by decide⟩
  · intro s
    by_cases hs : s = ""
    · subst hs; decide
    · have : sanitizeSortForDayOnly (some s) = pyJoinComma (sortTokens s) := by
        simp only [sanitizeSortForDayOnly, if_neg hs]
      rw [this]
      exact tokensOf_pyJoinComma (sortTokens_ne_nil s) (sortTokens_clean s)
  · intro s p hp
    unfold sortTokens at hp
    have hp2 : p = "day" ∨ p ∈ sortTokensNonempty s := by
      split at hp
      · exact List.mem_cons.1 hp
      · exact Or.inr hp
    rcases hp2 with rfl | hp2
    · decide
    · unfold sortTokensNonempty at hp2
      split at hp2
      · rw [List.mem_singleton] at hp2; subst hp2; decide
      · have := List.of_mem_filter hp2
        simpa using this
  · intro s
    unfold sortTokens
    by_cases h : (sortTokensNonempty s).all (fun p => pyLstripDash p ≠ "day")
    · rw [if_pos h]
      exact ⟨"day", List.mem_cons_self _ _, by decide⟩
    · rw [if_neg h]
      rw [List.all_eq_true] at h
      push_neg at h
      rcases h with ⟨p, hp, hne⟩
      exact ⟨p, hp, by simpa using hne⟩

theorem C3_sort_sanitization_witness :
    "day" ∈ sortTokens "day,-video" ∧ pyLstripDash "day" ≠ "video" :=
  ⟨by decide, C3_sort_sanitization.2.1 "day,-video" "day" (by decide)⟩

/-! ## Metric alias normalization (`sanitize_metrics`, main.py:356-365) -/

/-- Embedding of the `METRIC_ALIASES` dict (main.py:33-38) as an association
list in source order. -/
def METRIC_ALIASES : List (String × String) :=
  [("watchTime", "estimatedMinutesWatched"),
   ("avgViewDuration", "averageViewDuration"),
   ("avg_view_duration", "averageViewDuration"),
   ("estimated_watch_time_minutes", "estimatedMinutesWatched")]

/-- Embedding of `METRIC_ALIASES.get(m, m)`. -/
def aliasGet (m : String) : String :=
  (METRIC_ALIASES.lookup m).getD m

/-- The loop body of `sanitize_metrics` (main.py:357-364): fold over the raw
comma-split pieces, trimming, skipping empties, alias-mapping, and appending
first occurrences to the accumulator `cleaned`. -/
def smFold : List String → List String → List String
  | [], cleaned => cleaned
  | raw :: rest, cleaned =>
    if pyStrip raw = "" then smFold rest cleaned
    else if aliasGet (pyStrip raw) ∈ cleaned then smFold rest cleaned
    else smFold rest (cleaned ++ [aliasGet (pyStrip raw)])

/-- Embedding of `sanitize_metrics` (main.py:356-365). -/
def sanitize_metrics (metrics : String) : String :=
  pyJoinComma (smFold (pySplitComma metrics) [])

/-- The alias-mapped trimmed nonempty tokens of the raw pieces, in order and
with duplicates retained: the stream the fold consumes. -/
def aliasTokensL (raws : List String) : List String :=
  ((raws.map pyStrip).filter (fun p => p ≠ "")).map aliasGet

theorem aliasTokensL_cons (raw : String) (rest : List String) :
    aliasTokensL (raw :: rest) =
      if pyStrip raw = "" then aliasTokensL rest
      else aliasGet (pyStrip raw) :: aliasTokensL rest := by
  unfold aliasTokensL
  by_cases h : pyStrip raw = "" <;> simp [h]

theorem smFold_split :
    ∀ (raws acc : List String),
      ∃ r, smFold raws acc = acc ++ r ∧ r.Sublist (aliasTokensL raws) := by
  intro raws
  induction raws with
  | nil => intro acc; exact ⟨[], by simp [smFold, aliasTokensL]⟩
  | cons raw rest ih =>
    intro acc
    by_cases h0 : pyStrip raw = ""
    · rcases ih acc with ⟨r, hr, hsub⟩
      refine ⟨r, ?_, ?_⟩
      · simpa [smFold, h0] using hr
      · rw [aliasTokensL_cons, if_pos h0]; exact hsub
    · by_cases h1 : aliasGet (pyStrip raw) ∈ acc
      · rcases ih acc with ⟨r, hr, hsub⟩
        refine ⟨r, ?_, ?_⟩
        · simpa [smFold, h0, h1] using hr
        · rw [aliasTokensL_cons, if_neg h0]
          exact hsub.cons _
      · rcases ih (acc ++ [aliasGet (pyStrip raw)]) with ⟨r, hr, hsub⟩
        refine ⟨aliasGet (pyStrip raw) :: r, ?_, ?_⟩
        · rw [show smFold (raw :: rest) acc =
              smFold rest (acc ++ [aliasGet (pyStrip raw)]) by
                simp [smFold, h0, h1]]
          rw [hr, List.append_assoc]
          rfl
        · rw [aliasTokensL_cons, if_neg h0]
          exact hsub.cons₂ _

theorem smFold_nodup :
    ∀ (raws acc : List String), acc.Nodup → (smFold raws acc).Nodup := by
  intro raws
  induction raws with
  | nil => intro acc h; simpa [smFold] using h
  | cons raw rest ih =>
    intro acc hacc
    by_cases h0 : pyStrip raw = ""
    · simpa [smFold, h0] using ih acc hacc
    · by_cases h1 : aliasGet (pyStrip raw) ∈ acc
      · simpa [smFold, h0, h1] using ih acc hacc
      · have : (acc ++ [aliasGet (pyStrip raw)]).Nodup := by
          simp [List.nodup_append, hacc, h1]
        simpa [smFold, h0, h1] using
          ih (acc ++ [aliasGet (pyStrip raw)]) this

theorem smFold_mem :
    ∀ (raws acc : List String), ∀ x ∈ smFold raws acc,
      x ∈ acc ∨ ∃ raw ∈ raws, pyStrip raw ≠ "" ∧ x = aliasGet (pyStrip raw) := by
  intro raws
  induction raws with
  | nil => intro acc x hx; exact Or.inl (by simpa [smFold] using hx)
  | cons raw rest ih =>
    intro acc x hx
    by_cases h0 : pyStrip raw = ""
    · rcases ih acc x (by simpa [smFold, h0] using hx) with h | ⟨q, hq, hqe⟩
      · exact Or.inl h
      · exact Or.inr ⟨q, List.mem_cons_of_mem raw hq, hqe⟩
    · by_cases h1 : aliasGet (pyStrip raw) ∈ acc
      · rcases ih acc x (by simpa [smFold, h0, h1] using hx) with
          h | ⟨q, hq, hqe⟩
        · exact Or.inl h
        · exact Or.inr ⟨q, List.mem_cons_of_mem raw hq, hqe⟩
      · rcases ih (acc ++ [aliasGet (pyStrip raw)]) x
          (by simpa [smFold, h0, h1] using hx) with h | ⟨q, hq, hqe⟩
        · rcases List.mem_append.1 h with h | h
          · exact Or.inl h
          · exact Or.inr ⟨raw, List.mem_cons_self raw rest,
              h0, by simpa using h⟩
        · exact Or.inr ⟨q, List.mem_cons_of_mem raw hq, hqe⟩

theorem lookup_METRIC_ALIASES_cases {m v : String}
    (h : METRIC_ALIASES.lookup m = some v) :
    v = "estimatedMinutesWatched" ∨ v = "averageViewDuration" := by
  simp only [METRIC_ALIASES, List.lookup] at h
  repeat' split at h
  all_goals simp_all

/-- Every token emitted by the fold is trim-fixed, nonempty, comma-free and a
fixed point of the alias map. -/
theorem aliasGet_clean {raw : String} (hraw : ',' ∉ raw.data)
    (h0 : pyStrip raw ≠ "") :
    pyStrip (aliasGet (pyStrip raw)) = aliasGet (pyStrip raw) ∧
    aliasGet (pyStrip raw) ≠ "" ∧
    ',' ∉ (aliasGet (pyStrip raw)).data ∧
    aliasGet (aliasGet (pyStrip raw)) = aliasGet (pyStrip raw) := by
  cases h : METRIC_ALIASES.lookup (pyStrip raw) with
  | none =>
    have he : aliasGet (pyStrip raw) = pyStrip raw := by
      simp [aliasGet, h]
    rw [he]
    exact ⟨pyStrip_pyStrip raw, h0, not_mem_pyStripL hraw,
      by simp [aliasGet, h]⟩
  | some v =>
    have he : aliasGet (pyStrip raw) = v := by simp [aliasGet, h]
    rw [he]
    rcases lookup_METRIC_ALIASES_cases h with rfl | rfl <;>
      exact ⟨by decide, by decide, by decide, by decide⟩

/-- The fold leaves a list of already-clean, duplicate-free tokens unchanged
(appending them all to the accumulator). -/
theorem smFold_fixed :
    ∀ (L acc : List String),
      (∀ x ∈ L, pyStrip x = x ∧ x ≠ "" ∧ aliasGet x = x) → L.Nodup →
      (∀ x ∈ L, x ∉ acc) → smFold L acc = acc ++ L := by
  intro L
  induction L with
  | nil => intro acc _ _ _; simp [smFold]
  | cons a as ih =>
    intro acc hclean hnodup hdisj
    rcases hclean a (List.mem_cons_self a as) with ⟨hstrip, hne, halias⟩
    have h0 : ¬ (pyStrip a = "") := by rw [hstrip]; exact hne
    have h1 : aliasGet (pyStrip a) ∉ acc := by
      rw [hstrip, halias]
      exact hdisj a (List.mem_cons_self a as)
    have hna : a ∉ acc := hdisj a (List.mem_cons_self a as)
    have step : smFold (a :: as) acc = smFold as (acc ++ [a]) := by
      simp [smFold, hstrip, halias, hne, hna]
    rw [step, ih (acc ++ [a])
      (fun x hx => hclean x (List.mem_cons_of_mem a hx))
      (List.Nodup.of_cons hnodup) ?_]
    · simp
    · intro x hx hmem
      rcases List.mem_append.1 hmem with h | h
      · exact hdisj x (List.mem_cons_of_mem a hx) h
      · rw [List.mem_singleton] at h
        subst h
        exact (List.nodup_cons.1 hnodup).1 hx

/-- C8: metric-list normalization is idempotent; its token list is
duplicate-free and a sublist (hence first-occurrence-order-preserving) of the
alias-mapped token stream; and the spec's concrete example holds. -/
theorem C8_metric_normalization :
    (∀ s : String,
      sanitize_metrics (sanitize_metrics s) = sanitize_metrics s) ∧
    (∀ s : String, (smFold (pySplitComma s) []).Nodup ∧
      (smFold (pySplitComma s) []).Sublist (aliasTokensL (pySplitComma s))) ∧
    sanitize_metrics "views,watchTime,views" =
      "views,estimatedMinutesWatched" := by
  refine ⟨?_, ?_, by decide⟩
  · intro s
    have hnodup : (smFold (pySplitComma s) []).Nodup :=
      smFold_nodup _ _ (by simp)
    have hclean : ∀ x ∈ smFold (pySplitComma s) [],
        pyStrip x = x ∧ x ≠ "" ∧ ',' ∉ x.data ∧ aliasGet x = x := by
      intro x hx
      rcases smFold_mem _ _ x hx with h | ⟨raw, hraw, h0, rfl⟩
      · simp at h
      · exact aliasGet_clean (not_mem_data_pySplitComma raw hraw) h0
    by_cases hLe : smFold (pySplitComma s) [] = []
    · have h1 : sanitize_metrics s = "" := by
        rw [show sanitize_metrics s =
          pyJoinComma (smFold (pySplitComma s) []) from rfl, hLe]
        decide
      rw [h1]
      decide
    · have hfree : ∀ p ∈ smFold (pySplitComma s) [], ',' ∉ p.data :=
        fun p hp => (hclean p hp).2.2.1
      have h2 := pySplitComma_pyJoinComma hLe hfree
      have key : smFold (pySplitComma
          (pyJoinComma (smFold (pySplitComma s) []))) [] =
          smFold (pySplitComma s) [] := by
        rw [h2]
        have := smFold_fixed (smFold (pySplitComma s) []) []
          (fun x hx => ⟨(hclean x hx).1, (hclean x hx).2.1,
            (hclean x hx).2.2.2⟩) hnodup (by simp)
        simpa using this
      show pyJoinComma (smFold (pySplitComma (sanitize_metrics s)) []) =
        sanitize_metrics s
      rw [show sanitize_metrics s =
        pyJoinComma (smFold (pySplitComma s) []) from rfl, key]
  · intro s
    refine ⟨smFold_nodup _ _ (by simp), ?_⟩
    rcases smFold_split (pySplitComma s) [] with ⟨r, hr, hsub⟩
    rw [hr, List.nil_append]
    exact hsub

/-! ## Pagination of `run_report` (main.py:315-341) -/

/-- Embedding of the pagination loop of `run_report` (main.py:320-339) against
an analytics endpoint that holds the row list `L`: the response to a request
with `startIndex = si` and `maxResults = P` carries the rows
`(L.drop (si - 1)).take P` (the API's record offsets are 1-based).  The result
is the list of `startIndex` values of the requests issued, paired with all
accumulated rows.  The loop stops after a request that returns no rows or a
short page, and otherwise advances `start_index += page_size`. -/
def reportPages (P : Nat) (L : List α) (si : Nat) : List Nat × List α :=
  if h1 : ((L.drop (si - 1)).take P).isEmpty then ([si], [])
  else if h2 : ((L.drop (si - 1)).take P).length < P then
    ([si], (L.drop (si - 1)).take P)
  else
    (si :: (reportPages P L (si + P)).1,
     (L.drop (si - 1)).take P ++ (reportPages P L (si + P)).2)
termination_by L.length + 1 - si
decreasing_by
  all_goals
    have hne : ((L.drop (si - 1)).take P) ≠ [] := by simpa using h1
    have hpos : 0 < ((L.drop (si - 1)).take P).length := List.length_pos.2 hne
    have hlen : ((L.drop (si - 1)).take P).length =
        min P (L.length - (si - 1)) := by
      simp [List.length_take, List.length_drop]
    omega

/-- The paginated loop accumulates exactly the endpoint's rows from the
starting offset on. -/
theorem reportPages_rows (P : Nat) (hP : 0 < P) (L : List α) :
    ∀ si, 1 ≤ si → (reportPages P L si).2 = L.drop (si - 1) := by
  intro si
  induction si using reportPages.induct P L with
  | case1 si h1 =>
    intro _
    rw [reportPages, dif_pos h1]
    have hnil : (L.drop (si - 1)).take P = [] := by simpa using h1
    rcases List.take_eq_nil_iff.1 hnil with h | h
    · exact absurd h (Nat.pos_iff_ne_zero.1 hP)
    · simp [h]
  | case2 si h1 h2 =>
    intro _
    rw [reportPages, dif_neg h1, dif_pos h2]
    have hle : (L.drop (si - 1)).length ≤ P := by
      have h3 := List.length_take P (L.drop (si - 1))
      have h4 := List.length_drop (si - 1) L
      omega
    simp [List.take_of_length_le hle]
  | case3 si h1 h2 ih =>
    intro hsi
    rw [reportPages, dif_neg h1, dif_neg h2]
    have hrec := ih (by omega)
    simp only [hrec]
    rw [show si + P - 1 = (si - 1) + P by omega, ← List.drop_drop,
      List.take_append_drop]

/-- The start indices issued by the paginated loop form the arithmetic
progression `si, si + P, si + 2P, …` of length `(remaining rows) / P + 1`. -/
theorem reportPages_requests (P : Nat) (hP : 0 < P) (L : List α) :
    ∀ si, 1 ≤ si →
      (reportPages P L si).1 =
        (List.range ((L.length + 1 - si) / P + 1)).map (fun k => si + k * P) := by
  intro si
  induction si using reportPages.induct P L with
  | case1 si h1 =>
    intro hsi
    rw [reportPages, dif_pos h1]
    have hnil : (L.drop (si - 1)).take P = [] := by simpa using h1
    rcases List.take_eq_nil_iff.1 hnil with h | h
    · exact absurd h (Nat.pos_iff_ne_zero.1 hP)
    · have hdl : L.length ≤ si - 1 := by
        have := List.length_drop (si - 1) L
        rw [h] at this
        simp at this
        omega
      have hz : (L.length + 1 - si) = 0 := by omega
      simp [hz, List.range_succ]
  | case2 si h1 h2 =>
    intro hsi
    rw [reportPages, dif_neg h1, dif_pos h2]
    have hlen : ((L.drop (si - 1)).take P).length =
        min P (L.length - (si - 1)) := by
      simp [List.length_take, List.length_drop]
    have hn : (L.length + 1 - si) < P := by omega
    have hdiv : (L.length + 1 - si) / P = 0 := Nat.div_eq_of_lt hn
    simp [hdiv, List.range_succ]
  | case3 si h1 h2 ih =>
    intro hsi
    rw [reportPages, dif_neg h1, dif_neg h2]
    have hrec := ih (by omega)
    rw [hrec]
    have hlen : ((L.drop (si - 1)).take P).length =
        min P (L.length - (si - 1)) := by
      simp [List.length_take, List.length_drop]
    have hpos : 0 < ((L.drop (si - 1)).take P).length :=
      List.length_pos.2 (by simpa using h1)
    have hPn : P ≤ L.length + 1 - si := by omega
    have hn' : L.length + 1 - (si + P) = (L.length + 1 - si) - P := by omega
    have hdiv : (L.length + 1 - si) / P = ((L.length + 1 - si) - P) / P + 1 :=
      Nat.div_eq_sub_div hP hPn
    have hfun : ((fun k => si + k * P) ∘ Nat.succ) =
        (fun k => si + P + k * P) := by
      funext k
      simp only [Function.comp_apply, Nat.succ_eq_add_one]
      ring
    rw [hn', hdiv]
    conv_rhs => rw [List.range_succ_eq_map, List.map_cons, List.map_map]
    rw [hfun]
    simp

/-- C2 (amended): against an endpoint holding `N = L.length` rows with page
size `P > 0`, `run_report` issues exactly `⌊N/P⌋ + 1` requests — which equals
`⌈N/P⌉` exactly when `P` does not divide `N`; when `P` divides `N` (including
`N = 0`) one extra empty-or-short-detecting request is issued — and the k-th
request (k = 0, 1, …) uses start index `1 + k·P`; the rows accumulated are
exactly the endpoint's rows. -/
theorem C2_pagination_requests {α : Type} (P : Nat) (L : List α)
    (hP : 0 < P) :
    (reportPages P L 1).1 =
      (List.range (L.length / P + 1)).map (fun k => 1 + k * P) ∧
    (reportPages P L 1).2 = L := by
  constructor
  · have h := reportPages_requests P hP L 1 le_rfl
    simpa using h
  · have h := reportPages_rows P hP L 1 le_rfl
    simpa using h

theorem C2_pagination_requests_witness :
    0 < 2 ∧
    ((reportPages 2 [(10 : Nat), 20, 30] 1).1 =
      (List.range ([(10 : Nat), 20, 30].length / 2 + 1)).map
        (fun k => 1 + k * 2) ∧
     (reportPages 2 [(10 : Nat), 20, 30] 1).2 = [10, 20, 30]) :=
  ⟨by decide, C2_pagination_requests 2 [(10 : Nat), 20, 30] (by decide)⟩

/-- C2 counterexample: the claim predicts `⌈N/P⌉ = (N + P - 1) / P` requests.
For `N = 1` row and page size `P = 1` that is `(1 + 1 - 1) / 1 = 1`, but the
loop issues 2 requests: the first page is full, so a second request is needed
to observe the end of the data. -/
theorem C2_counterexample :
    (reportPages 1 [(0 : Nat)] 1).1.length ≠ (1 + 1 - 1) / 1 := by
  have h := reportPages_requests 1 (by decide) [(0 : Nat)] 1 le_rfl
  rw [h]
  decide

/-! ## Data-frame model for the two report-assembly paths -/

/-- A pandas cell: the tables hold strings (ids, titles, days) and numbers
(metric values). -/
inductive Cell where
  | str : String → Cell
  | num : Int → Cell
deriving DecidableEq, Repr

/-- Python `str(x)` on a cell, as used by `.astype(str)`. -/
def cellToStr : Cell → String
  | .str s => s
  | .num n => toString n

/-- A pandas DataFrame: a column-name list and rows aligned with it. -/
structure DF where
  cols : List String
  rows : List (List Cell)
deriving DecidableEq, Repr

/-- Value of the first column named `n` in a row (pandas label lookup). -/
def lookupCell : List String → List Cell → String → Cell
  | c :: cs, x :: xs, n => if c = n then x else lookupCell cs xs n
  | _, _, _ => Cell.str ""

/-- Replace the value of the first column named `n` in a row. -/
def setCellAt : List String → List Cell → String → Cell → List Cell
  | c :: cs, x :: xs, n, v =>
    if c = n then v :: xs else x :: setCellAt cs xs n v
  | _, r, _, _ => r

/-- pandas `df.insert(i, name, scalar)`: a new column at position `i` holding
the same value in every row. -/
def DF.insertConst (df : DF) (i : Nat) (name : String) (v : Cell) : DF :=
  ⟨df.cols.take i ++ name :: df.cols.drop i,
   df.rows.map (fun r => r.take i ++ v :: r.drop i)⟩

/-- pandas `df.rename(columns={old: new})` (by label). -/
def DF.renameCol (df : DF) (old new : String) : DF :=
  ⟨df.cols.map (fun c => if c = old then new else c), df.rows⟩

/-- pandas column selection `df[names]` (by label, first occurrence). -/
def DF.select (df : DF) (names : List String) : DF :=
  ⟨names, df.rows.map (fun r => names.map (fun n => lookupCell df.cols r n))⟩

/-- pandas `df[target] = df[src].map(f)`. -/
def DF.assignColFrom (df : DF) (target src : String) (f : Cell → Cell) : DF :=
  ⟨df.cols,
   df.rows.map (fun r =>
     setCellAt df.cols r target (f (lookupCell df.cols r src)))⟩

/-- The column reordering shared by both paths (main.py:401-405, 440-444):
`cols.remove(k)` for each key column present, then select
`["videoId", "videoTitle", "day"] + cols`. -/
def reorderKeyCols (df : DF) : DF :=
  df.select (["videoId", "videoTitle", "day"] ++
    (((df.cols.erase "videoId").erase "videoTitle").erase "day"))

/-- Concatenation of per-element lists, in order. -/
def catMap (f : α → List β) : List α → List β
  | [] => []
  | a :: as => f a ++ catMap f as

/-- pandas `pd.concat(dfs)` for frames sharing one column list. -/
def concatDFs (dfs : List DF) : DF :=
  ⟨(dfs.head?.map DF.cols).getD [], catMap DF.rows dfs⟩

/-- A stored row of the analytics service's video×day dataset: a video id, a
day, and one numeric value per requested metric. -/
structure DataRow where
  vid : String
  day : String
  vals : List Int
deriving DecidableEq, Repr

/-- The metric column names for a metrics parameter: the service echoes one
column header per requested metric, and the program's empty-table default
columns `[m.strip() for m in metrics.split(",")]` (main.py:408-410) are the
same list. -/
def metricNames (metrics : String) : List String :=
  (pySplitComma metrics).map pyStrip

/-- Model of `run_report(..., dimensions="day", filters=f"video=={vid}")`
(main.py:382-391).  The remote analytics endpoint is modelled as a
deterministic function of its stored dataset; by `reportPages_rows` the
paginated loop collects exactly all matching rows, so the query is embedded
as the full filtered row list, with headers `day :: metric names`.  The
`sort` parameter only influences the vendor-side row order, which this model
fixes as storage order. -/
def queryDayForVideo (data : List DataRow) (metrics : String)
    (vid : String) : DF :=
  ⟨"day" :: metricNames metrics,
   (data.filter (fun r => r.vid = vid)).map
     (fun r => Cell.str r.day :: r.vals.map Cell.num)⟩

/-- Model of `run_report(..., dimensions="video,day")` (main.py:416-424),
with headers `video :: day :: metric names`. -/
def queryVideoDay (data : List DataRow) (metrics : String) : DF :=
  ⟨"video" :: "day" :: metricNames metrics,
   data.map (fun r => Cell.str r.vid :: Cell.str r.day :: r.vals.map Cell.num)⟩

/-- Embedding of `title_map.get(vid, "")` with the title map as an association list. -/
def lookupTitle (tm : List (String × String)) (v : String) : String :=
  (tm.lookup v).getD ""

/-- The shaping of one video's non-empty report in the loop
(main.py:392-395): insert constant `videoId` and `videoTitle` columns at
positions 0 and 1. -/
def shapeVideoDF (tm : List (String × String)) (vid : String) (df : DF) : DF :=
  (df.insertConst 0 "videoId" (Cell.str vid)).insertConst 1 "videoTitle"
    (Cell.str (lookupTitle tm vid))

/-- The `dfs` list accumulated by the loop over videos (main.py:380-395):
each video's day-dimensioned report, skipped when empty, otherwise shaped
with its `videoId`/`videoTitle` columns, in enumeration order. -/
def loopDFs (data : List DataRow) (videoIds : List String)
    (tm : List (String × String)) (metrics : String) : List DF :=
  videoIds.filterMap (fun vid =>
    if (queryDayForVideo data metrics vid).rows.isEmpty then none
    else some (shapeVideoDF tm vid (queryDayForVideo data metrics vid)))

/-- Embedding of `videos_daily_via_loop` (main.py:368-410).  The video
enumeration and the title lookup are external Data API calls; their results
(`videoIds`, `tm`) are inputs here.  With no contributions the default empty
table is returned (main.py:407-410); otherwise the concatenation is reordered
to put the key columns first. -/
def videos_daily_via_loop (data : List DataRow) (videoIds : List String)
    (tm : List (String × String)) (metrics : String) : DF :=
  if (loopDFs data videoIds tm metrics).isEmpty then
    ⟨["videoId", "videoTitle", "day"] ++ metricNames metrics, []⟩
  else reorderKeyCols (concatDFs (loopDFs data videoIds tm metrics))

/-- The best-effort title enrichment of the fallback path (main.py:431-438):
`tm? = none` models an unreachable Data API or a failed lookup (the column
keeps its empty value); `some tm` sets `videoTitle` from `videoId`. -/
def titleEnrich (tm? : Option (List (String × String))) (df : DF) : DF :=
  match tm? with
  | none => df
  | some tm => df.assignColFrom "videoTitle" "videoId"
      (fun c => Cell.str (lookupTitle tm (cellToStr c)))

/-- Embedding of `videos_daily_via_analytics_only` (main.py:413-445).  An
empty report is returned as-is (main.py:425-426), before any renaming;
otherwise the `video` column is renamed, `videoTitle` is inserted at
position 1 and best-effort enriched, and the key columns are moved to the
front. -/
def videos_daily_via_analytics_only (data : List DataRow)
    (tm? : Option (List (String × String))) (metrics : String) : DF :=
  if (queryVideoDay data metrics).rows.isEmpty then queryVideoDay data metrics
  else
    reorderKeyCols (titleEnrich tm?
      (((queryVideoDay data metrics).renameCol "video" "videoId").insertConst
        1 "videoTitle" (Cell.str "")))

/-! ## C1: output column order -/

theorem eraseThreeKeys (M : List String) :
    ((((["videoId", "videoTitle", "day"] ++ M).erase "videoId").erase
      "videoTitle").erase "day") = M := by
  simp [List.cons_append, List.erase_cons_head]

theorem shapeVideoDF_cols (tm : List (String × String)) (vid : String)
    (data : List DataRow) (metrics : String) :
    (shapeVideoDF tm vid (queryDayForVideo data metrics vid)).cols =
      ["videoId", "videoTitle", "day"] ++ metricNames metrics := rfl

theorem videos_daily_via_loop_cols (data : List DataRow)
    (videoIds : List String) (tm : List (String × String)) (metrics : String) :
    (videos_daily_via_loop data videoIds tm metrics).cols =
      ["videoId", "videoTitle", "day"] ++ metricNames metrics := by
  unfold videos_daily_via_loop
  by_cases h : (loopDFs data videoIds tm metrics).isEmpty
  · rw [if_pos h]
  · rw [if_neg h]
    rcases hd : loopDFs data videoIds tm metrics with _ | ⟨d, rest⟩
    · rw [hd] at h; simp at h
    · have hdm : d ∈ loopDFs data videoIds tm metrics := by
        rw [hd]; exact List.mem_cons_self d rest
      rcases List.mem_filterMap.1 hdm with ⟨v, _, hfv⟩
      have hdcols : d.cols =
          ["videoId", "videoTitle", "day"] ++ metricNames metrics := by
        by_cases he : (queryDayForVideo data metrics v).rows.isEmpty
        · rw [if_pos he] at hfv; simp at hfv
        · rw [if_neg he] at hfv
          rw [← Option.some.inj hfv]
          exact shapeVideoDF_cols tm v data metrics
      have hcc : (concatDFs (d :: rest)).cols = d.cols := rfl
      unfold reorderKeyCols DF.select
      rw [show ∀ (df : DF) (ns : List String), (DF.mk ns
        (df.rows.map (fun r => ns.map (fun n => lookupCell df.cols r n)))).cols
        = ns from fun _ _ => rfl]
      rw [hcc, hdcols, eraseThreeKeys]

theorem titleEnrich_cols (tm? : Option (List (String × String))) (df : DF) :
    (titleEnrich tm? df).cols = df.cols := by
  cases tm? <;> rfl

theorem videos_daily_via_analytics_only_cols (data : List DataRow)
    (tm? : Option (List (String × String))) (metrics : String)
    (hne : (videos_daily_via_analytics_only data tm? metrics).rows ≠ [])
    (hv : "video" ∉ metricNames metrics) :
    (videos_daily_via_analytics_only data tm? metrics).cols =
      ["videoId", "videoTitle", "day"] ++ metricNames metrics := by
  unfold videos_daily_via_analytics_only at hne ⊢
  by_cases h : (queryVideoDay data metrics).rows.isEmpty
  · rw [if_pos h] at hne
    exact absurd (by simpa using h) hne
  · rw [if_neg h]
    have hmapM : (metricNames metrics).map
        (fun c => if c = "video" then "videoId" else c) =
        metricNames metrics := by
      conv_rhs => rw [← List.map_id (metricNames metrics)]
      apply List.map_congr_left
      intro c hc
      have hcv : c ≠ "video" := fun e => hv (e ▸ hc)
      simp [hcv]
    have hren : ((queryVideoDay data metrics).renameCol "video"
        "videoId").cols = "videoId" :: "day" :: metricNames metrics := by
      show ("video" :: "day" :: metricNames metrics).map
        (fun c => if c = "video" then "videoId" else c) = _
      rw [List.map_cons, List.map_cons, hmapM, if_pos rfl,
        if_neg (show ("day" : String) ≠ "video" by decide)]
    have hins : ((((queryVideoDay data metrics).renameCol "video"
        "videoId")).insertConst 1 "videoTitle" (Cell.str "")).cols =
        ["videoId", "videoTitle", "day"] ++ metricNames metrics := by
      show (((queryVideoDay data metrics).renameCol "video"
          "videoId").cols.take 1) ++ "videoTitle" ::
          (((queryVideoDay data metrics).renameCol "video"
            "videoId").cols.drop 1) = _
      rw [hren]
      rfl
    show (reorderKeyCols _).cols = _
    unfold reorderKeyCols DF.select
    rw [show ∀ (df : DF) (ns : List String), (DF.mk ns
      (df.rows.map (fun r => ns.map (fun n => lookupCell df.cols r n)))).cols
      = ns from fun _ _ => rfl]
    rw [titleEnrich_cols, hins, eraseThreeKeys]

/-- C1: every daily metrics table produced by either path — the per-video
loop or the combined fallback — has column list exactly
`videoId, videoTitle, day` followed by the metric columns in response-header
order.  For the loop path this holds unconditionally (even for the empty
default table); for the fallback path it holds for every non-empty result,
provided no metric is itself named `video` (the fallback renames that header). -/
theorem C1_output_column_order :
    (∀ (data : List DataRow) (videoIds : List String)
        (tm : List (String × String)) (metrics : String),
      (videos_daily_via_loop data videoIds tm metrics).cols =
        ["videoId", "videoTitle", "day"] ++ metricNames metrics) ∧
    (∀ (data : List DataRow) (tm? : Option (List (String × String)))
        (metrics : String),
      (videos_daily_via_analytics_only data tm? metrics).rows ≠ [] →
      "video" ∉ metricNames metrics →
      (videos_daily_via_analytics_only data tm? metrics).cols =
        ["videoId", "videoTitle", "day"] ++ metricNames metrics) :=
  ⟨videos_daily_via_loop_cols,
   fun data tm? metrics hne hv =>
     videos_daily_via_analytics_only_cols data tm? metrics hne hv⟩

theorem C1_output_column_order_witness :
    ((videos_daily_via_analytics_only [⟨"v1", "2024-01-01", [5]⟩]
        (some [("v1", "Title")]) "views").rows ≠ [] ∧
      "video" ∉ metricNames "views") ∧
    (videos_daily_via_analytics_only [⟨"v1", "2024-01-01", [5]⟩]
        (some [("v1", "Title")]) "views").cols =
      ["videoId", "videoTitle", "day"] ++ metricNames "views" :=
  ⟨⟨by decide, by decide⟩,
   C1_output_column_order.2 [⟨"v1", "2024-01-01", [5]⟩]
     (some [("v1", "Title")]) "views" (by decide) (by decide)⟩

/-! ## C9: equivalence of the two paths on the same dataset -/

theorem lookupCell_map_self :
    ∀ (cols : List String) (r : List Cell), cols.Nodup →
      r.length = cols.length →
      cols.map (fun n => lookupCell cols r n) = r := by
  intro cols
  induction cols with
  | nil =>
    intro r _ hlen
    cases r with
    | nil => rfl
    | cons x xs => simp at hlen
  | cons c cs ih =>
    intro r hnd hlen
    cases r with
    | nil => simp at hlen
    | cons x xs =>
      have hc : c ∉ cs := (List.nodup_cons.1 hnd).1
      rw [List.map_cons]
      have hhead : lookupCell (c :: cs) (x :: xs) c = x := by
        simp [lookupCell]
      have htail : cs.map (fun n => lookupCell (c :: cs) (x :: xs) n) =
          cs.map (fun n => lookupCell cs xs n) := by
        apply List.map_congr_left
        intro n hn
        have hne : ¬ (c = n) := fun e => hc (e ▸ hn)
        simp [lookupCell, hne]
      rw [hhead, htail, ih xs (List.nodup_cons.1 hnd).2 (by simpa using hlen)]

/-- When the selection names are exactly the (duplicate-free) column list and
all rows are aligned, the reordering is the identity. -/
theorem reorderKeyCols_id (df : DF) (M : List String)
    (hcols : df.cols = ["videoId", "videoTitle", "day"] ++ M)
    (hnd : df.cols.Nodup)
    (hlen : ∀ r ∈ df.rows, r.length = df.cols.length) :
    reorderKeyCols df = df := by
  unfold reorderKeyCols DF.select
  have hnames : ["videoId", "videoTitle", "day"] ++
      (((df.cols.erase "videoId").erase "videoTitle").erase "day") =
      df.cols := by
    rw [hcols, eraseThreeKeys]
  rw [hnames]
  rcases df with ⟨cols, rows⟩
  simp only at hnd hlen ⊢
  congr 1
  conv_rhs => rw [← List.map_id rows]
  apply List.map_congr_left
  intro r hr
  exact lookupCell_map_self cols r hnd (hlen r hr)

theorem catMap_congr {f g : α → List β} :
    ∀ l : List α, (∀ a ∈ l, f a = g a) → catMap f l = catMap g l := by
  intro l
  induction l with
  | nil => intro _; rfl
  | cons a as ih =>
    intro h
    show f a ++ catMap f as = g a ++ catMap g as
    rw [h a (List.mem_cons_self a as),
      ih (fun x hx => h x (List.mem_cons_of_mem a hx))]

theorem catMap_map (g : α → List γ) (f : γ → β) :
    ∀ l : List α, catMap (fun a => (g a).map f) l = (catMap g l).map f := by
  intro l
  induction l with
  | nil => rfl
  | cons a as ih =>
    show (g a).map f ++ catMap (fun a => (g a).map f) as = _
    rw [ih]
    show _ = ((g a) ++ catMap g as).map f
    rw [List.map_append]

/-- Distributing a duplicate-free, covering key list over a dataset:
concatenating the per-key filters is a permutation of the dataset. -/
theorem catMap_filter_perm (key : α → String) :
    ∀ (ks : List String) (L : List α), ks.Nodup →
      (∀ a ∈ L, key a ∈ ks) →
      List.Perm (catMap (fun k => L.filter (fun a => key a = k)) ks) L := by
  intro ks
  induction ks with
  | nil =>
    intro L _ hcov
    have hL : L = [] := by
      cases L with
      | nil => rfl
      | cons a as => exact absurd (hcov a (List.mem_cons_self a as)) (by simp)
    simp [hL, catMap]
  | cons k ks ih =>
    intro L hnd hcov
    have hk : k ∉ ks := (List.nodup_cons.1 hnd).1
    have hsub : ∀ u ∈ ks, L.filter (fun a => key a = u) =
        (L.filter (fun a => !(key a = k : Bool))).filter
          (fun a => key a = u) := by
      intro u hu
      rw [List.filter_filter]
      apply List.filter_congr
      intro a _
      by_cases h : key a = u
      · have huk : ¬ (u = k) := fun e => hk (e ▸ hu)
        simp [h, huk]
      · simp [h]
    have hcat : catMap (fun u => L.filter (fun a => key a = u)) ks =
        catMap (fun u => (L.filter (fun a => !(key a = k : Bool))).filter
          (fun a => key a = u)) ks := catMap_congr ks hsub
    have hperm2 := ih (L.filter (fun a => !(key a = k : Bool)))
      (List.nodup_cons.1 hnd).2 ?_
    · show List.Perm (L.filter (fun a => key a = k) ++
        catMap (fun u => L.filter (fun a => key a = u)) ks) L
      rw [hcat]
      exact ((hperm2.append_left (L.filter (fun a => key a = k))).trans
        (List.filter_append_perm (fun a => key a = k) L))
    · intro a ha
      have hmem := List.mem_of_mem_filter ha
      have hne := List.of_mem_filter ha
      rcases List.mem_cons.1 (hcov a hmem) with h | h
      · exfalso
        simp [h] at hne
      · exact h

/-- The common row shape both paths produce for a dataset row: id, title
looked up from the title map, day, then the metric values. -/
def dailyRow (tm : List (String × String)) (r : DataRow) : List Cell :=
  Cell.str r.vid :: Cell.str (lookupTitle tm r.vid) ::
    Cell.str r.day :: r.vals.map Cell.num

theorem catMap_const_nil : ∀ l : List α, catMap (fun _ => ([] : List β)) l = [] := by
  intro l
  induction l with
  | nil => rfl
  | cons a as ih => simpa [catMap] using ih

theorem mem_catMap {f : α → List β} :
    ∀ {l : List α} {b : β}, b ∈ catMap f l → ∃ a ∈ l, b ∈ f a := by
  intro l
  induction l with
  | nil => intro b hb; simp [catMap] at hb
  | cons a as ih =>
    intro b hb
    rcases List.mem_append.1 hb with h | h
    · exact ⟨a, List.mem_cons_self a as, h⟩
    · rcases ih h with ⟨x, hx, hbx⟩
      exact ⟨x, List.mem_cons_of_mem a hx, hbx⟩

theorem shapeVideoDF_rows (tm : List (String × String)) (vid : String)
    (data : List DataRow) (metrics : String) :
    (shapeVideoDF tm vid (queryDayForVideo data metrics vid)).rows =
      (data.filter (fun r => r.vid = vid)).map
        (fun r => Cell.str vid :: Cell.str (lookupTitle tm vid) ::
          Cell.str r.day :: r.vals.map Cell.num) := by
  unfold shapeVideoDF DF.insertConst queryDayForVideo
  simp only [List.map_map]
  rfl

theorem loopDFs_cols (data : List DataRow) (videoIds : List String)
    (tm : List (String × String)) (metrics : String) :
    ∀ d ∈ loopDFs data videoIds tm metrics,
      d.cols = ["videoId", "videoTitle", "day"] ++ metricNames metrics := by
  intro d hd
  rcases List.mem_filterMap.1 hd with ⟨v, _, hfv⟩
  by_cases he : (queryDayForVideo data metrics v).rows.isEmpty
  · rw [if_pos he] at hfv; simp at hfv
  · rw [if_neg he] at hfv
    rw [← Option.some.inj hfv]
    exact shapeVideoDF_cols tm v data metrics

theorem concat_loopDFs_rows (data : List DataRow) (videoIds : List String)
    (tm : List (String × String)) (metrics : String) :
    catMap DF.rows (loopDFs data videoIds tm metrics) =
      catMap (fun v => (data.filter (fun r => r.vid = v)).map
        (fun r => Cell.str v :: Cell.str (lookupTitle tm v) ::
          Cell.str r.day :: r.vals.map Cell.num)) videoIds := by
  unfold loopDFs
  induction videoIds with
  | nil => rfl
  | cons v vs ih =>
    by_cases h : (queryDayForVideo data metrics v).rows.isEmpty
    · simp only [List.filterMap_cons, if_pos h]
      have hf : data.filter (fun r => r.vid = v) = [] := by
        unfold queryDayForVideo at h
        simpa using h
      show catMap DF.rows (List.filterMap _ vs) = _
      rw [show catMap (fun u => (data.filter (fun r => r.vid = u)).map
          (fun r => Cell.str u :: Cell.str (lookupTitle tm u) ::
            Cell.str r.day :: r.vals.map Cell.num)) (v :: vs) =
          (data.filter (fun r => r.vid = v)).map
            (fun r => Cell.str v :: Cell.str (lookupTitle tm v) ::
              Cell.str r.day :: r.vals.map Cell.num) ++
          catMap (fun u => (data.filter (fun r => r.vid = u)).map
            (fun r => Cell.str u :: Cell.str (lookupTitle tm u) ::
              Cell.str r.day :: r.vals.map Cell.num)) vs from rfl]
      rw [hf, ih]
      rfl
    · simp only [List.filterMap_cons, if_neg h]
      show (shapeVideoDF tm v (queryDayForVideo data metrics v)).rows ++
        catMap DF.rows (List.filterMap _ vs) = _
      rw [shapeVideoDF_rows, ih]
      rfl

theorem videos_daily_via_loop_rows (data : List DataRow)
    (videoIds : List String) (tm : List (String × String)) (metrics : String)
    (hnd : (["videoId", "videoTitle", "day"] ++ metricNames metrics).Nodup)
    (hvals : ∀ r ∈ data, r.vals.length = (metricNames metrics).length) :
    (videos_daily_via_loop data videoIds tm metrics).rows =
      catMap (fun v => (data.filter (fun r => r.vid = v)).map
        (fun r => Cell.str v :: Cell.str (lookupTitle tm v) ::
          Cell.str r.day :: r.vals.map Cell.num)) videoIds := by
  unfold videos_daily_via_loop
  by_cases h : (loopDFs data videoIds tm metrics).isEmpty
  · rw [if_pos h]
    have hnil : loopDFs data videoIds tm metrics = [] := by simpa using h
    have hall : ∀ v ∈ videoIds, data.filter (fun r => r.vid = v) = [] := by
      intro v hv
      have hfv := (List.filterMap_eq_nil_iff.1 hnil) v hv
      by_cases he : (queryDayForVideo data metrics v).rows.isEmpty
      · unfold queryDayForVideo at he
        simpa using he
      · rw [if_neg he] at hfv; simp at hfv
    show ([] : List (List Cell)) = _
    symm
    have : catMap (fun v => (data.filter (fun r => r.vid = v)).map
        (fun r => Cell.str v :: Cell.str (lookupTitle tm v) ::
          Cell.str r.day :: r.vals.map Cell.num)) videoIds =
        catMap (fun _ => ([] : List (List Cell))) videoIds := by
      apply catMap_congr
      intro v hv
      rw [hall v hv]
      rfl
    rw [this]
    exact catMap_const_nil videoIds
  · rw [if_neg h]
    rcases hd : loopDFs data videoIds tm metrics with _ | ⟨d, rest⟩
    · rw [hd] at h; simp at h
    · have hcols : (concatDFs (d :: rest)).cols =
          ["videoId", "videoTitle", "day"] ++ metricNames metrics := by
        have := loopDFs_cols data videoIds tm metrics d
          (by rw [hd]; exact List.mem_cons_self d rest)
        show d.cols = _
        exact this
      have hlen : ∀ r ∈ (concatDFs (d :: rest)).rows,
          r.length = (concatDFs (d :: rest)).cols.length := by
        intro r hr
        have hr2 : r ∈ catMap DF.rows (d :: rest) := hr
        rcases mem_catMap hr2 with ⟨e, he, hre⟩
        have he2 : e ∈ loopDFs data videoIds tm metrics := by
          rw [hd]; exact he
        rcases List.mem_filterMap.1 he2 with ⟨v, _, hfv⟩
        by_cases hq : (queryDayForVideo data metrics v).rows.isEmpty
        · rw [if_pos hq] at hfv; simp at hfv
        · rw [if_neg hq] at hfv
          rw [← Option.some.inj hfv] at hre
          rw [shapeVideoDF_rows] at hre
          rcases List.mem_map.1 hre with ⟨dr, hdr, rfl⟩
          have hdrd : dr ∈ data := List.mem_of_mem_filter hdr
          rw [hcols]
          simp [hvals dr hdrd]
      rw [reorderKeyCols_id (concatDFs (d :: rest)) (metricNames metrics)
        hcols (hcols ▸ hnd) hlen]
      show catMap DF.rows (d :: rest) = _
      rw [← hd]
      exact concat_loopDFs_rows data videoIds tm metrics

/-- Columns of the fallback's frame after renaming `video` and inserting
`videoTitle` (main.py:428-430), before title enrichment and reordering. -/
theorem fallback_inner_cols (data : List DataRow) (metrics : String)
    (hv : "video" ∉ metricNames metrics) :
    (((queryVideoDay data metrics).renameCol "video" "videoId").insertConst 1
      "videoTitle" (Cell.str "")).cols =
      ["videoId", "videoTitle", "day"] ++ metricNames metrics := by
  have hmapM : (metricNames metrics).map
      (fun c => if c = "video" then "videoId" else c) =
      metricNames metrics := by
    conv_rhs => rw [← List.map_id (metricNames metrics)]
    apply List.map_congr_left
    intro c hc
    have hcv : c ≠ "video" := fun e => hv (e ▸ hc)
    simp [hcv]
  have hren : ((queryVideoDay data metrics).renameCol "video"
      "videoId").cols = "videoId" :: "day" :: metricNames metrics := by
    show ("video" :: "day" :: metricNames metrics).map
      (fun c => if c = "video" then "videoId" else c) = _
    rw [List.map_cons, List.map_cons, hmapM, if_pos rfl,
      if_neg (show ("day" : String) ≠ "video" by decide)]
  show (((queryVideoDay data metrics).renameCol "video"
      "videoId").cols.take 1) ++ "videoTitle" ::
      (((queryVideoDay data metrics).renameCol "video"
        "videoId").cols.drop 1) = _
  rw [hren]
  rfl

theorem videos_daily_via_analytics_only_rows (data : List DataRow)
    (tm : List (String × String)) (metrics : String)
    (hnd : (["videoId", "videoTitle", "day"] ++ metricNames metrics).Nodup)
    (hv : "video" ∉ metricNames metrics)
    (hvals : ∀ r ∈ data, r.vals.length = (metricNames metrics).length)
    (hdata : data ≠ []) :
    (videos_daily_via_analytics_only data (some tm) metrics).rows =
      data.map (dailyRow tm) := by
  unfold videos_daily_via_analytics_only
  have hq : ¬ ((queryVideoDay data metrics).rows.isEmpty = true) := by
    unfold queryVideoDay
    simpa using hdata
  rw [if_neg hq]
  have hYcols := fallback_inner_cols data metrics hv
  have hYrows : (((queryVideoDay data metrics).renameCol "video"
      "videoId").insertConst 1 "videoTitle" (Cell.str "")).rows =
      data.map (fun r => Cell.str r.vid :: Cell.str "" ::
        Cell.str r.day :: r.vals.map Cell.num) := by
    show ((queryVideoDay data metrics).rows).map
      (fun r => r.take 1 ++ Cell.str "" :: r.drop 1) = _
    unfold queryVideoDay
    simp only [List.map_map]
    rfl
  have hXrows : (titleEnrich (some tm)
      (((queryVideoDay data metrics).renameCol "video" "videoId").insertConst
        1 "videoTitle" (Cell.str ""))).rows = data.map (dailyRow tm) := by
    show (((queryVideoDay data metrics).renameCol "video"
        "videoId").insertConst 1 "videoTitle" (Cell.str "")).rows.map
        (fun r => setCellAt (((queryVideoDay data metrics).renameCol "video"
          "videoId").insertConst 1 "videoTitle" (Cell.str "")).cols r
          "videoTitle" (Cell.str (lookupTitle tm (cellToStr (lookupCell
            (((queryVideoDay data metrics).renameCol "video"
              "videoId").insertConst 1 "videoTitle" (Cell.str "")).cols r
            "videoId"))))) = _
    rw [hYcols, hYrows, List.map_map]
    apply List.map_congr_left
    intro r _
    rfl
  have hXcols : (titleEnrich (some tm)
      (((queryVideoDay data metrics).renameCol "video" "videoId").insertConst
        1 "videoTitle" (Cell.str ""))).cols =
      ["videoId", "videoTitle", "day"] ++ metricNames metrics := by
    rw [titleEnrich_cols, hYcols]
  rw [reorderKeyCols_id _ (metricNames metrics) hXcols (hXcols ▸ hnd) ?_]
  · exact hXrows
  · intro r hr
    rw [hXrows] at hr
    rcases List.mem_map.1 hr with ⟨dr, hdr, rfl⟩
    rw [hXcols]
    simp [dailyRow, hvals dr hdr]

/-- C9 (amended): on a dataset with at least one row — whose video ids are
all covered by the duplicate-free enumeration and which carries one value per
metric, with metric names distinct from the key columns — the loop path and
the combined fallback path produce the same column list and the same rows up
to permutation.  (On the empty dataset the two column sets differ: see the
counterexample.) -/
theorem C9_fallback_equivalence (data : List DataRow) (videoIds : List String)
    (tm : List (String × String)) (metrics : String)
    (hdata : data ≠ [])
    (hcov : ∀ r ∈ data, r.vid ∈ videoIds)
    (hndIds : videoIds.Nodup)
    (hvals : ∀ r ∈ data, r.vals.length = (metricNames metrics).length)
    (hnd : (["videoId", "videoTitle", "day"] ++ metricNames metrics).Nodup)
    (hv : "video" ∉ metricNames metrics) :
    (videos_daily_via_loop data videoIds tm metrics).cols =
      (videos_daily_via_analytics_only data (some tm) metrics).cols ∧
    List.Perm (videos_daily_via_loop data videoIds tm metrics).rows
      (videos_daily_via_analytics_only data (some tm) metrics).rows := by
  have hrowsB := videos_daily_via_analytics_only_rows data tm metrics hnd hv
    hvals hdata
  have hneB : (videos_daily_via_analytics_only data (some tm) metrics).rows
      ≠ [] := by
    rw [hrowsB]
    simpa using hdata
  constructor
  · rw [videos_daily_via_loop_cols,
      videos_daily_via_analytics_only_cols data (some tm) metrics hneB hv]
  · rw [videos_daily_via_loop_rows data videoIds tm metrics hnd hvals, hrowsB]
    have hstep : catMap (fun v => (data.filter (fun r => r.vid = v)).map
        (fun r => Cell.str v :: Cell.str (lookupTitle tm v) ::
          Cell.str r.day :: r.vals.map Cell.num)) videoIds =
        catMap (fun v => (data.filter (fun r => r.vid = v)).map
          (dailyRow tm)) videoIds := by
      apply catMap_congr
      intro v _
      apply List.map_congr_left
      intro r hr
      have hrv : r.vid = v := by simpa using List.of_mem_filter hr
      unfold dailyRow
      rw [hrv]
    rw [hstep, catMap_map (fun v => data.filter (fun r => r.vid = v))
      (dailyRow tm) videoIds]
    exact List.Perm.map (dailyRow tm)
      (catMap_filter_perm DataRow.vid videoIds data hndIds hcov)

theorem C9_fallback_equivalence_witness :
    (([⟨"v1", "2024-01-01", [5]⟩] : List DataRow) ≠ [] ∧
      (∀ r ∈ ([⟨"v1", "2024-01-01", [5]⟩] : List DataRow),
        r.vid ∈ ["v1"]) ∧
      (["v1"] : List String).Nodup ∧
      (∀ r ∈ ([⟨"v1", "2024-01-01", [5]⟩] : List DataRow),
        r.vals.length = (metricNames "views").length) ∧
      (["videoId", "videoTitle", "day"] ++ metricNames "views").Nodup ∧
      "video" ∉ metricNames "views") ∧
    ((videos_daily_via_loop [⟨"v1", "2024-01-01", [5]⟩] ["v1"]
        [("v1", "Title")] "views").cols =
      (videos_daily_via_analytics_only [⟨"v1", "2024-01-01", [5]⟩]
        (some [("v1", "Title")]) "views").cols ∧
     List.Perm (videos_daily_via_loop [⟨"v1", "2024-01-01", [5]⟩] ["v1"]
        [("v1", "Title")] "views").rows
      (videos_daily_via_analytics_only [⟨"v1", "2024-01-01", [5]⟩]
        (some [("v1", "Title")]) "views").rows) :=
  ⟨⟨by decide, by decide, by decide, by decide, by decide, by decide⟩,
   C9_fallback_equivalence [⟨"v1", "2024-01-01", [5]⟩] ["v1"]
     [("v1", "Title")] "views" (by decide) (by decide) (by decide)
     (by decide) (by decide) (by decide)⟩

/-- C9 counterexample: on the empty dataset both paths produce zero rows, but
the combined path returns its report unshaped (main.py:425-426), so its
column set lacks `videoTitle` (and uses `video` instead of `videoId`), while
the loop path returns the default `videoId, videoTitle, day, …` header: the
claimed "identical column sets for every underlying data set" fails. -/
theorem C9_counterexample :
    "videoTitle" ∈ (videos_daily_via_loop [] [] [] "views").cols ∧
    "videoTitle" ∉ (videos_daily_via_analytics_only [] (some []) "views").cols
    := by decide

/-! ## Comment fetching (`fetch_latest_comments`, main.py:226-312) -/

/-- A top-level comment as the fetch loop sees it: an id and a publish
timestamp.  `datetime` values are embedded as microseconds since the epoch
(UTC); comparisons in the source are comparisons of these integers. -/
structure Comment where
  cid : String
  publishedMicros : Int
deriving DecidableEq, Repr

def microsPerSec : Int := 1000000

/-- Microseconds of `<day>T00:00:00Z` for a day index (days since epoch):
the `since_iso + "T00:00:00Z"` bound of main.py:240. -/
def dayStartMicros (d : Int) : Int := d * 86400 * microsPerSec

/-- Microseconds of `<day>T23:59:59Z`: the `until_iso + "T23:59:59Z"` bound
of main.py:241. -/
def dayEndMicros (d : Int) : Int := dayStartMicros d + 86399 * microsPerSec

/-- The window filter of the fetch loop: the negation of the two `continue`
conditions `published < since_dt` and `published > until_dt`
(main.py:280-282); `none` models an absent bound. -/
def commentInWindow (published : Int) (sinceDay untilDay : Option Int) :
    Bool :=
  (match sinceDay with
   | some s => ! decide (published < dayStartMicros s)
   | none => true) &&
  (match untilDay with
   | some u => ! decide (published > dayEndMicros u)
   | none => true)

/-- The items of one `commentThreads.list` response: the comments endpoint is
modelled as a newest-first stream, and a request at stream position `pos`
with `maxResults = min remaining 100` (main.py:255) returns the next
that-many items. -/
def pageItems (comments : List Comment) (pos remaining : Nat) : List Comment :=
  (comments.drop pos).take (min remaining 100)

/-- One video's paging loop (main.py:252-307): while `remaining > 0`, request
a page; stop on an empty page; otherwise append the window-filtered items,
subtract the number of items examined (kept or not) from `remaining`, and
continue only when a `nextPageToken` is present — modelled as the stream
having items beyond this page.  Returns (kept rows, requests issued, items
examined). -/
def fetchVideoLoop (w : Comment → Bool) (comments : List Comment)
    (pos remaining : Nat) : List Comment × Nat × Nat :=
  if _h0 : remaining = 0 then ([], 0, 0)
  else if h1 : (pageItems comments pos remaining).isEmpty then ([], 1, 0)
  else if _h2 : pos + (pageItems comments pos remaining).length <
      comments.length then
    ((pageItems comments pos remaining).filter w ++
      (fetchVideoLoop w comments
        (pos + (pageItems comments pos remaining).length)
        (remaining - (pageItems comments pos remaining).length)).1,
     (fetchVideoLoop w comments
        (pos + (pageItems comments pos remaining).length)
        (remaining - (pageItems comments pos remaining).length)).2.1 + 1,
     (pageItems comments pos remaining).length +
      (fetchVideoLoop w comments
        (pos + (pageItems comments pos remaining).length)
        (remaining - (pageItems comments pos remaining).length)).2.2)
  else ((pageItems comments pos remaining).filter w, 1,
    (pageItems comments pos remaining).length)
termination_by remaining
decreasing_by
  all_goals
    have hne : pageItems comments pos remaining ≠ [] := by simpa using h1
    have hpos : 0 < (pageItems comments pos remaining).length :=
      List.length_pos.2 hne
    omega

/-- Closed form of the per-video loop: the kept rows are the window filter of
the first `remaining` stream items from `pos` on, and the number of examined
items is `min remaining (stream length - pos)` — independent of the window. -/
theorem fetchVideoLoop_spec (w : Comment → Bool) (comments : List Comment) :
    ∀ pos remaining,
      (fetchVideoLoop w comments pos remaining).1 =
        ((comments.drop pos).take remaining).filter w ∧
      (fetchVideoLoop w comments pos remaining).2.2 =
        min remaining (comments.length - pos) := by
  intro pos remaining
  induction pos, remaining using fetchVideoLoop.induct w comments with
  | case1 pos =>
    rw [fetchVideoLoop, dif_pos rfl]
    simp
  | case2 pos remaining h0 h1 =>
    rw [fetchVideoLoop, dif_neg h0, dif_pos h1]
    have hnil : pageItems comments pos remaining = [] := by simpa using h1
    have hd : comments.drop pos = [] := by
      unfold pageItems at hnil
      rcases List.take_eq_nil_iff.1 hnil with h | h
      · exfalso; omega
      · exact h
    have hlen : comments.length ≤ pos := by
      have := List.length_drop pos comments
      rw [hd] at this
      simp at this
      omega
    refine ⟨?_, ?_⟩
    · show ([] : List Comment) = _
      rw [hd]; simp
    · show 0 = min remaining (comments.length - pos)
      have : comments.length - pos = 0 := by omega
      simp [this]
  | case3 pos remaining h0 h1 h2 ih =>
    rw [fetchVideoLoop, dif_neg h0, dif_neg h1, dif_pos h2]
    have hlen : (pageItems comments pos remaining).length =
        min (min remaining 100) (comments.length - pos) := by
      unfold pageItems
      simp [List.length_take]
    have heq : (pageItems comments pos remaining).length =
        min remaining 100 := by omega
    have hitems : pageItems comments pos remaining =
        (comments.drop pos).take ((pageItems comments pos remaining).length)
        := by
      conv_lhs => unfold pageItems
      rw [heq]
    rcases ih with ⟨ih1, ih2⟩
    refine ⟨?_, ?_⟩
    · show (pageItems comments pos remaining).filter w ++
        (fetchVideoLoop w comments
          (pos + (pageItems comments pos remaining).length)
          (remaining - (pageItems comments pos remaining).length)).1 = _
      rw [ih1]
      have hsplit : (comments.drop pos).take remaining =
          (comments.drop pos).take ((pageItems comments pos
            remaining).length) ++
          ((comments.drop pos).drop ((pageItems comments pos
            remaining).length)).take
            (remaining - (pageItems comments pos remaining).length) := by
        rw [← List.take_add]
        congr 1
        omega
      rw [hsplit, List.filter_append, ← hitems, List.drop_drop]
    · show (pageItems comments pos remaining).length +
        (fetchVideoLoop w comments
          (pos + (pageItems comments pos remaining).length)
          (remaining - (pageItems comments pos remaining).length)).2.2 = _
      rw [ih2]
      omega
  | case4 pos remaining h0 h1 h2 =>
    rw [fetchVideoLoop, dif_neg h0, dif_neg h1, dif_neg h2]
    have hlen : (pageItems comments pos remaining).length =
        min (min remaining 100) (comments.length - pos) := by
      unfold pageItems
      simp [List.length_take]
    -- no next page: the page reaches the end of the stream
    have hdlen : (comments.drop pos).length = comments.length - pos :=
      List.length_drop pos comments
    have hfull : pageItems comments pos remaining = comments.drop pos := by
      unfold pageItems
      apply List.take_of_length_le
      omega
    refine ⟨?_, ?_⟩
    · show (pageItems comments pos remaining).filter w = _
      rw [hfull]
      congr 1
      symm
      apply List.take_of_length_le
      omega
    · show (pageItems comments pos remaining).length = _
      omega

theorem fetchVideoLoop_requests_indep (w w' : Comment → Bool)
    (comments : List Comment) :
    ∀ pos remaining,
      (fetchVideoLoop w comments pos remaining).2.1 =
        (fetchVideoLoop w' comments pos remaining).2.1 := by
  intro pos remaining
  induction pos, remaining using fetchVideoLoop.induct w comments with
  | case1 pos =>
    conv_lhs => rw [fetchVideoLoop]
    conv_rhs => rw [fetchVideoLoop]
    rw [dif_pos rfl, dif_pos rfl]
  | case2 pos remaining h0 h1 =>
    conv_lhs => rw [fetchVideoLoop]
    conv_rhs => rw [fetchVideoLoop]
    rw [dif_neg h0, dif_neg h0, dif_pos h1, dif_pos h1]
  | case3 pos remaining h0 h1 h2 ih =>
    conv_lhs => rw [fetchVideoLoop]
    conv_rhs => rw [fetchVideoLoop]
    rw [dif_neg h0, dif_neg h0, dif_neg h1, dif_neg h1, dif_pos h2,
      dif_pos h2]
    show (fetchVideoLoop w comments
        (pos + (pageItems comments pos remaining).length)
        (remaining - (pageItems comments pos remaining).length)).2.1 + 1 =
      (fetchVideoLoop w' comments
        (pos + (pageItems comments pos remaining).length)
        (remaining - (pageItems comments pos remaining).length)).2.1 + 1
    rw [ih]
  | case4 pos remaining h0 h1 h2 =>
    conv_lhs => rw [fetchVideoLoop]
    conv_rhs => rw [fetchVideoLoop]
    rw [dif_neg h0, dif_neg h0, dif_neg h1, dif_neg h1, dif_neg h2,
      dif_neg h2]

/-- C4: a comment is kept exactly when its publish time lies in the closed
window from `since` at 00:00:00 UTC to `until` at 23:59:59 UTC.  The first
conjunct characterizes the window test (main.py:280-282) as the closed
interval; the second states that among the examined (quota-limited) stream a
comment is kept iff it is examined and in-window; the last four are the
boundary cases: both endpoints included, one microsecond outside either
endpoint excluded. -/
theorem C4_comment_window (sinceD untilD : Int) (p : Int)
    (comments : List Comment) (per : Nat) (c : Comment) :
    (commentInWindow p (some sinceD) (some untilD) = true ↔
      dayStartMicros sinceD ≤ p ∧ p ≤ dayEndMicros untilD) ∧
    (c ∈ (fetchVideoLoop
        (fun c0 => commentInWindow c0.publishedMicros (some sinceD)
          (some untilD)) comments 0 per).1 ↔
      (c ∈ comments.take per ∧
       dayStartMicros sinceD ≤ c.publishedMicros ∧
       c.publishedMicros ≤ dayEndMicros untilD)) ∧
    (commentInWindow (dayStartMicros 0) (some 0) (some 0) = true ∧
     commentInWindow (dayEndMicros 0) (some 0) (some 0) = true ∧
     commentInWindow (dayStartMicros 0 - 1) (some 0) (some 0) = false ∧
     commentInWindow (dayEndMicros 0 + 1) (some 0) (some 0) = false) := by
  have hwin : ∀ q : Int, commentInWindow q (some sinceD) (some untilD) = true
      ↔ dayStartMicros sinceD ≤ q ∧ q ≤ dayEndMicros untilD := by
    intro q
    unfold commentInWindow
    simp only [Bool.and_eq_true, Bool.not_eq_eq_eq_not, Bool.not_true,
      decide_eq_false_iff_not, not_lt, gt_iff_lt]
  refine ⟨hwin p, ?_, by decide, by decide, by decide, by decide⟩
  rw [(fetchVideoLoop_spec _ comments 0 per).1, List.mem_filter]
  rw [List.drop_zero]
  rw [hwin c.publishedMicros]

/-- C5: the per-video quota counts examined items, not kept items.  The kept
rows are the window filter of the first `per` stream items; the examined
count is `min per (stream length)` regardless of the window; and both the
request count and the examined count are identical for any two window
predicates — dropping an out-of-window comment still consumes quota. -/
theorem C5_comment_quota (w w' : Comment → Bool) (comments : List Comment)
    (per : Nat) :
    (fetchVideoLoop w comments 0 per).1 = (comments.take per).filter w ∧
    (fetchVideoLoop w comments 0 per).2.2 = min per comments.length ∧
    (fetchVideoLoop w comments 0 per).2.1 =
      (fetchVideoLoop w' comments 0 per).2.1 ∧
    (fetchVideoLoop w comments 0 per).2.2 =
      (fetchVideoLoop w' comments 0 per).2.2 := by
  have h1 := fetchVideoLoop_spec w comments 0 per
  have h2 := fetchVideoLoop_spec w' comments 0 per
  refine ⟨?_, ?_, ?_, ?_⟩
  · rw [h1.1, List.drop_zero]
  · rw [h1.2]; simp
  · exact fetchVideoLoop_requests_indep w w' comments 0 per
  · rw [h1.2, h2.2]

/-- The recognized non-fatal markers (main.py:243-249). -/
def SKIP_MARKERS : List String :=
  ["insufficientPermissions", "forbidden", "commentsDisabled",
   "disabled comments", "videoNotFound"]

def startsWithL : List Char → List Char → Bool
  | [], _ => true
  | _ :: _, [] => false
  | p :: ps, c :: cs => p = c && startsWithL ps cs

def hasSubstrL (pat : List Char) : List Char → Bool
  | [] => pat.isEmpty
  | c :: rest => startsWithL pat (c :: rest) || hasSubstrL pat rest

/-- Python `pat in s` for strings. -/
def pyContains (s pat : String) : Bool := hasSubstrL pat.data s.data

/-- Embedding of `any(marker in msg for marker in SKIP_MARKERS)` (main.py:267). -/
def isSkippable (msg : String) : Bool :=
  SKIP_MARKERS.any (fun m => pyContains msg m)

/-- Embedding of `fetch_latest_comments` over the video list
(main.py:251-312).  Each video's comments-endpoint outcome is an input:
`Except.error msg` models the first `commentThreads.list` call raising an
`HttpError` with message `msg` (the recognized non-fatal conditions —
permission denied, comments disabled, video not found — fail on the first
request); `Except.ok comments` models a reachable newest-first stream, fed to
the per-video paging loop.  A skippable error breaks out of that video only
(with a logged warning); any other error propagates out of the whole
function. -/
def fetch_latest_comments (w : Comment → Bool) (perVideo : Nat) :
    List (String × Except String (List Comment)) →
      Except String (List (String × Comment))
  | [] => .ok []
  | (_, .error msg) :: rest =>
    if isSkippable msg then fetch_latest_comments w perVideo rest
    else .error msg
  | (vid, .ok comments) :: rest =>
    match fetch_latest_comments w perVideo rest with
    | .error e => .error e
    | .ok rows =>
      .ok (((fetchVideoLoop w comments 0 perVideo).1).map
        (fun c => (vid, c)) ++ rows)

/-- C7: a recognized non-fatal error for one video removes exactly that
video's contribution and processing continues with the remaining videos,
while an unrecognized error propagates and terminates the run (given the
videos before it succeeded). -/
theorem C7_comment_skip_markers (w : Comment → Bool) (per : Nat) :
    (∀ (xs ys : List (String × Except String (List Comment)))
        (vid : String) (msg : String),
      isSkippable msg = true →
      fetch_latest_comments w per (xs ++ (vid, Except.error msg) :: ys) =
        fetch_latest_comments w per (xs ++ ys)) ∧
    (∀ (xs ys : List (String × Except String (List Comment)))
        (vid : String) (msg : String) (rows : List (String × Comment)),
      isSkippable msg = false →
      fetch_latest_comments w per xs = Except.ok rows →
      fetch_latest_comments w per (xs ++ (vid, Except.error msg) :: ys) =
        Except.error msg) := by
  constructor
  · intro xs ys vid msg hskip
    induction xs with
    | nil =>
      show fetch_latest_comments w per ((vid, Except.error msg) :: ys) = _
      simp [fetch_latest_comments, hskip]
    | cons x xs ih =>
      rcases x with ⟨v, out⟩
      cases out with
      | error m =>
        show fetch_latest_comments w per
          ((v, Except.error m) :: (xs ++ (vid, Except.error msg) :: ys)) = _
        by_cases hm : isSkippable m
        · simp only [fetch_latest_comments, if_pos hm]
          exact ih
        · simp only [fetch_latest_comments, if_neg hm]
      | ok cs =>
        show (match fetch_latest_comments w per
            (xs ++ (vid, Except.error msg) :: ys) with
          | .error e => Except.error e
          | .ok rows => Except.ok (((fetchVideoLoop w cs 0 per).1).map
              (fun c => (v, c)) ++ rows)) = _
        rw [ih]
        rfl
  · intro xs ys vid msg rows hskip hok
    induction xs generalizing rows with
    | nil =>
      show fetch_latest_comments w per ((vid, Except.error msg) :: ys) = _
      simp [fetch_latest_comments, hskip]
    | cons x xs ih =>
      rcases x with ⟨v, out⟩
      cases out with
      | error m =>
        by_cases hm : isSkippable m
        · have hok2 : fetch_latest_comments w per xs = Except.ok rows := by
            simpa [fetch_latest_comments, if_pos hm] using hok
          show fetch_latest_comments w per
            ((v, Except.error m) :: (xs ++ (vid, Except.error msg) :: ys)) = _
          simp only [fetch_latest_comments, if_pos hm]
          exact ih rows hok2
        · exfalso
          rw [show fetch_latest_comments w per ((v, Except.error m) :: xs) =
            Except.error m by simp [fetch_latest_comments, if_neg hm]] at hok
          exact Except.noConfusion hok
      | ok cs =>
        have hrest : ∃ rows0, fetch_latest_comments w per xs =
            Except.ok rows0 := by
          rcases hr : fetch_latest_comments w per xs with e | rows0
          · rw [show fetch_latest_comments w per ((v, Except.ok cs) :: xs) =
              Except.error e by simp [fetch_latest_comments, hr]] at hok
            exact absurd hok (by simp)
          · exact ⟨rows0, rfl⟩
        rcases hrest with ⟨rows0, hrows0⟩
        show (match fetch_latest_comments w per
            (xs ++ (vid, Except.error msg) :: ys) with
          | .error e => Except.error e
          | .ok rows => Except.ok (((fetchVideoLoop w cs 0 per).1).map
              (fun c => (v, c)) ++ rows)) = _
        rw [ih rows0 hrows0]

theorem C7_comment_skip_markers_witness :
    ((isSkippable "HttpError 403: commentsDisabled" = true ∧
      fetch_latest_comments (fun _ => true) 5
        ([("v1", Except.ok [])] ++
          ("v2", Except.error "HttpError 403: commentsDisabled") :: []) =
        fetch_latest_comments (fun _ => true) 5
          ([("v1", Except.ok [])] ++ [])) ∧
     (isSkippable "HttpError 403: quotaExceeded" = false ∧
      fetch_latest_comments (fun _ => true) 5
        ([] ++ ("v2", Except.error "HttpError 403: quotaExceeded") :: []) =
        Except.error "HttpError 403: quotaExceeded")) :=
  ⟨⟨by decide,
    (C7_comment_skip_markers (fun _ => true) 5).1 [("v1", Except.ok [])] []
      "v2" "HttpError 403: commentsDisabled" (by decide)⟩,
   ⟨by decide,
    (C7_comment_skip_markers (fun _ => true) 5).2 [] [] "v2"
      "HttpError 403: quotaExceeded" [] (by decide) rfl⟩⟩

/-! ## C6: failure semantics of loop mode and fallback (main.py:572-597) -/

/-- The per-video loop of `videos_daily_via_loop` with exceptions: each
video's `run_report` call can raise (`Except.error`), and the loop body has
no handler (main.py:381-395), so the first failure aborts the whole loop.
The data-frame shaping is modelled in `videos_daily_via_loop`; here only the
collected list and the failure propagation matter. -/
def loopDFsE (q : String → Except String DF) :
    List String → Except String (List DF)
  | [] => .ok []
  | v :: vs =>
    match q v with
    | .error e => .error e
    | .ok df =>
      match loopDFsE q vs with
      | .error e => .error e
      | .ok rest => .ok ((if df.rows.isEmpty then [] else [df]) ++ rest)

/-- Loop mode as called from `main`: the video enumeration itself
(`get_all_video_ids`) can also raise, which aborts before any query. -/
def videos_daily_via_loopE (enumRes : Except String (List String))
    (q : String → Except String DF) : Except String (List DF) :=
  match enumRes with
  | .error e => .error e
  | .ok vids => loopDFsE q vids

/-- The `try/except` around loop mode in `main` (main.py:572-597): on a loop
failure, re-raise when `--no-fallback` is set, otherwise return whatever the
fallback produces — including its errors, which have no further handler. -/
def mainMetricsStage (noFallback : Bool)
    (loopRes fallbackRes : Except String DF) : Except String DF :=
  match loopRes with
  | .ok df => .ok df
  | .error e => if noFallback then .error e else fallbackRes

/-- C6: a single video's query error is not caught per-video — it aborts the
entire loop (first conjunct: with all earlier videos succeeding, the loop's
result is that error); a loop error with fallback enabled yields exactly the
fallback's result, so a fallback error propagates (second conjunct, `fb` free
— including `fb = Except.error e'`); with fallback disabled the loop error
propagates (third conjunct). -/
theorem C6_failure_semantics :
    (∀ (q : String → Except String DF) (vs₁ vs₂ : List String)
        (v : String) (e : String),
      (∀ u ∈ vs₁, ∃ d, q u = Except.ok d) → q v = Except.error e →
      videos_daily_via_loopE (Except.ok (vs₁ ++ v :: vs₂)) q =
        Except.error e) ∧
    (∀ (e : String) (fb : Except String DF),
      mainMetricsStage false (Except.error e) fb = fb) ∧
    (∀ (e : String) (fb : Except String DF),
      mainMetricsStage true (Except.error e) fb = Except.error e) := by
  refine ⟨?_, fun e fb => rfl, fun e fb => rfl⟩
  intro q vs₁ vs₂ v e hok herr
  show loopDFsE q (vs₁ ++ v :: vs₂) = Except.error e
  induction vs₁ with
  | nil =>
    show loopDFsE q (v :: vs₂) = Except.error e
    simp [loopDFsE, herr]
  | cons u us ih =>
    rcases hok u (List.mem_cons_self u us) with ⟨d, hd⟩
    show loopDFsE q (u :: (us ++ v :: vs₂)) = Except.error e
    rw [show loopDFsE q (u :: (us ++ v :: vs₂)) =
        (match q u with
         | .error e => Except.error e
         | .ok df =>
           match loopDFsE q (us ++ v :: vs₂) with
           | .error e => Except.error e
           | .ok rest =>
             Except.ok ((if df.rows.isEmpty then [] else [df]) ++ rest))
      from rfl, hd, ih (fun x hx => hok x (List.mem_cons_of_mem u hx))]

/-- A query map used to instantiate `C6_failure_semantics`: one good video
and one failing video. -/
def exampleQuery : String → Except String DF := fun u =>
  if u = "v2" then Except.error "boom" else Except.ok ⟨[], []⟩

theorem C6_failure_semantics_witness :
    ((∀ u ∈ ["v1"], ∃ d, exampleQuery u = Except.ok d) ∧
      exampleQuery "v2" = Except.error "boom") ∧
    videos_daily_via_loopE (Except.ok (["v1"] ++ "v2" :: []))
      exampleQuery = Except.error "boom" :=
  ⟨⟨by
      intro u hu
      rw [List.mem_singleton] at hu
      subst hu
      exact ⟨⟨[], []⟩, rfl⟩,
    rfl⟩,
   C6_failure_semantics.1 exampleQuery ["v1"] [] "v2" "boom"
     (by
       intro u hu
       rw [List.mem_singleton] at hu
       subst hu
       exact ⟨⟨[], []⟩, rfl⟩)
     rfl⟩

/-! ## C10: comment-stage guard and targets (main.py:603-630) -/

/-- The string values of a column, as `metrics_df["videoId"].astype(str)`. -/
def DF.colValues (df : DF) (name : String) : List String :=
  df.rows.map (fun r => cellToStr (lookupCell df.cols r name))

def insertSorted (a : String) : List String → List String
  | [] => [a]
  | b :: bs => if a ≤ b then a :: b :: bs else b :: insertSorted a bs

def sortStrings (l : List String) : List String := l.foldr insertSorted []

/-- Python `sorted(set(xs))` for strings (main.py:611). -/
def sortedDedup (xs : List String) : List String := sortStrings xs.dedup

/-- The comment-stage guard and target selection of `main` (main.py:603-611):
`none` means the stage is skipped and no comments CSV is written; `some ts`
means `fetch_latest_comments` is invoked with exactly the video id list
`ts`. -/
def mainCommentTargets (commentsPerVideo : Nat) (youtubeAvailable : Bool)
    (metricsDF : DF) : Option (List String) :=
  if commentsPerVideo = 0 then none
  else if youtubeAvailable = false then none
  else if metricsDF.rows.isEmpty then none
  else some (sortedDedup (metricsDF.colValues "videoId"))

theorem mem_insertSorted (a x : String) :
    ∀ l : List String, x ∈ insertSorted a l ↔ x = a ∨ x ∈ l := by
  intro l
  induction l with
  | nil => simp [insertSorted]
  | cons b bs ih =>
    unfold insertSorted
    by_cases h : a ≤ b
    · rw [if_pos h]
      simp
    · rw [if_neg h]
      simp only [List.mem_cons, ih]
      tauto

theorem sorted_insertSorted (a : String) :
    ∀ l : List String, l.Sorted (fun x y => x ≤ y) →
      (insertSorted a l).Sorted (fun x y => x ≤ y) := by
  intro l
  induction l with
  | nil => intro _; simp [insertSorted]
  | cons b bs ih =>
    intro hs
    rcases List.pairwise_cons.1 hs with ⟨hb, hbs⟩
    unfold insertSorted
    by_cases h : a ≤ b
    · rw [if_pos h]
      apply List.pairwise_cons.2
      refine ⟨?_, hs⟩
      intro x hx
      rcases List.mem_cons.1 hx with rfl | hx
      · exact h
      · exact le_trans h (hb x hx)
    · rw [if_neg h]
      apply List.pairwise_cons.2
      refine ⟨?_, ih hbs⟩
      intro x hx
      rcases (mem_insertSorted a x bs).1 hx with rfl | hx
      · exact le_of_not_le h
      · exact hb x hx

theorem nodup_insertSorted (a : String) :
    ∀ l : List String, a ∉ l → l.Nodup → (insertSorted a l).Nodup := by
  intro l
  induction l with
  | nil => intro _ _; simp [insertSorted]
  | cons b bs ih =>
    intro ha hnd
    rcases List.nodup_cons.1 hnd with ⟨hb, hbs⟩
    unfold insertSorted
    by_cases h : a ≤ b
    · rw [if_pos h]
      exact List.nodup_cons.2 ⟨ha, hnd⟩
    · rw [if_neg h]
      apply List.nodup_cons.2
      refine ⟨?_, ih (fun e => ha (List.mem_cons_of_mem b e)) hbs⟩
      intro hbmem
      rcases (mem_insertSorted a b bs).1 hbmem with rfl | hx
      · exact ha (List.mem_cons_self b bs)
      · exact hb hx

theorem mem_sortStrings (x : String) :
    ∀ l : List String, x ∈ sortStrings l ↔ x ∈ l := by
  intro l
  induction l with
  | nil => simp [sortStrings]
  | cons a as ih =>
    show x ∈ insertSorted a (sortStrings as) ↔ _
    rw [mem_insertSorted]
    simp [ih]

theorem sorted_sortStrings :
    ∀ l : List String, (sortStrings l).Sorted (fun x y => x ≤ y) := by
  intro l
  induction l with
  | nil => simp [sortStrings]
  | cons a as ih =>
    show (insertSorted a (sortStrings as)).Sorted (fun x y => x ≤ y)
    exact sorted_insertSorted a (sortStrings as) ih

theorem nodup_sortStrings :
    ∀ l : List String, l.Nodup → (sortStrings l).Nodup := by
  intro l
  induction l with
  | nil => intro _; simp [sortStrings]
  | cons a as ih =>
    intro hnd
    rcases List.nodup_cons.1 hnd with ⟨ha, has⟩
    show (insertSorted a (sortStrings as)).Nodup
    apply nodup_insertSorted
    · rw [mem_sortStrings]
      exact ha
    · exact ih has

/-- C10: the comment stage is skipped entirely (no targets, no comments CSV)
when the metrics table has no rows, and when it runs, the fetch targets are
exactly the distinct values of the `videoId` column — duplicate-free, sorted,
and containing precisely the column's values. -/
theorem C10_comment_targets :
    (∀ (cpv : Nat) (yta : Bool) (df : DF),
      df.rows = [] → mainCommentTargets cpv yta df = none) ∧
    (∀ (cpv : Nat) (yta : Bool) (df : DF) (ts : List String),
      mainCommentTargets cpv yta df = some ts →
      ts.Nodup ∧ ts.Sorted (fun a b => a ≤ b) ∧
      (∀ v, v ∈ ts ↔ v ∈ df.colValues "videoId")) := by
  constructor
  · intro cpv yta df h
    unfold mainCommentTargets
    split
    · rfl
    · split
      · rfl
      · rw [if_pos (by simp [h])]
  · intro cpv yta df ts hsome
    unfold mainCommentTargets at hsome
    split at hsome
    · exact absurd hsome (by simp)
    · split at hsome
      · exact absurd hsome (by simp)
      · split at hsome
        · exact absurd hsome (by simp)
        · have hts : ts = sortedDedup (df.colValues "videoId") :=
            (Option.some.inj hsome).symm
          subst hts
          refine ⟨nodup_sortStrings _ (List.nodup_dedup _), ?_, ?_⟩
          · exact sorted_sortStrings _
          · intro v
            show v ∈ sortStrings (df.colValues "videoId").dedup ↔ _
            rw [mem_sortStrings, List.mem_dedup]

theorem C10_comment_targets_witness :
    ((DF.mk ["videoId"] []).rows = [] ∧
      mainCommentTargets 1 true (DF.mk ["videoId"] []) = none) ∧
    (mainCommentTargets 1 true (DF.mk ["videoId"]
        [[Cell.str "a"], [Cell.str "a"]]) = some ["a"] ∧
      ((["a"] : List String).Nodup ∧
       (["a"] : List String).Sorted (fun a b => a ≤ b) ∧
       (∀ v, v ∈ (["a"] : List String) ↔
         v ∈ (DF.mk ["videoId"]
           [[Cell.str "a"], [Cell.str "a"]]).colValues "videoId"))) :=
  ⟨⟨rfl, C10_comment_targets.1 1 true (DF.mk ["videoId"] []) rfl⟩,
   ⟨by decide,
    C10_comment_targets.2 1 true (DF.mk ["videoId"]
      [[Cell.str "a"], [Cell.str "a"]]) ["a"] (by decide)⟩⟩

end YTExporter
